import Mathlib

/-!
Verification of the crypto price bot's quote cache and voice-channel
reconciliation algorithm (`src/discord_price/quote.py` and
`src/discord_price/updaters.py`), via a shallow embedding in Lean.

Conventions used throughout the embedding:
* Python floats are modelled as rationals (`ℚ`); only order comparisons and
  arithmetic on them matter to the verified properties.
* Python dicts are modelled as insertion-ordered association lists
  (`List (String × β)`) with overwrite-in-place insertion, matching CPython's
  ordered-dict semantics.
* `await`-points carry no observable state here, so coroutines become pure
  functions; the outcome of the HTTP request made by `_fetch_from_api` is an
  explicit parameter (`Option`/`Except`), with `none`/`error` standing for any
  raised exception (network error, non-200, 429, parse failure).
* Code that can raise is embedded with `Except`; a total return type means the
  Python function never lets an exception escape.
-/

namespace DiscordPrice

/-- Subtraction on `ℚ`, written through `Rat.divInt` so that closed instances
evaluate by kernel reduction (the library's `Sub ℚ` instance is
`@[irreducible]`); `qSub_eq_sub` below shows it is ordinary subtraction. -/
def qSub (a b : ℚ) : ℚ :=
  Rat.divInt (a.num * b.den - b.num * a.den) (a.den * b.den)

theorem qSub_eq_sub (a b : ℚ) : qSub a b = a - b := by
  have ha : (a.den : ℤ) ≠ 0 := by exact_mod_cast a.den_ne_zero
  have hb : (b.den : ℤ) ≠ 0 := by exact_mod_cast b.den_ne_zero
  unfold qSub
  conv_rhs => rw [← Rat.num_divInt_den a, ← Rat.num_divInt_den b]
  rw [Rat.divInt_sub_divInt _ _ ha hb]

/-! ## A model of the JSON values handled by `_parse_api_response` -/

/-- JSON-like Python values as returned by `response.json()`. -/
inductive Json where
  | null
  | bool (b : Bool)
  | num (q : ℚ)
  | str (s : String)
  | arr (elems : List Json)
  | obj (kvs : List (String × Json))

/-- Python exceptions relevant to `_parse_api_response`:
`attributeError` models calling `.get`/`.items()` on a non-dict (uncaught by
the parser's `except (KeyError, ValueError, TypeError)` clause),
`valueError`/`typeError` model failed `float(...)` coercions, and
`exception msg` models a generic re-raised `Exception(msg)`. -/
inductive PyExc where
  | attributeError
  | valueError
  | typeError
  | exception (msg : String)
deriving Repr, DecidableEq

/-- `d.get(k, default)` on a Python dict: first binding wins, default when the
key is absent.  Never raises on a dict. -/
def dictGet (kvs : List (String × Json)) (k : String) (default : Json) : Json :=
  match kvs.find? (fun kv => kv.1 = k) with
  | some kv => kv.2
  | none => default

/-- `j.get(k, default)`: `AttributeError` when `j` is not a dict. -/
def jsonGet (j : Json) (k : String) (default : Json) : Except PyExc Json :=
  match j with
  | Json.obj kvs => Except.ok (dictGet kvs k default)
  | _ => Except.error PyExc.attributeError

/-- `j.items()`: `AttributeError` when `j` is not a dict. -/
def jsonItems (j : Json) : Except PyExc (List (String × Json)) :=
  match j with
  | Json.obj kvs => Except.ok kvs
  | _ => Except.error PyExc.attributeError

/-- Parse a decimal string the way `float(...)` accepts plain decimals:
optional sign, digits, optional fractional part.  (Python's `float` also
accepts exponents/inf/nan/whitespace; those forms never arise in the verified
properties and are mapped to a failed parse.) -/
def parseDecimal (s : String) : Option ℚ :=
  let (sign, body) : ℤ × List Char :=
    match s.toList with
    | '-' :: cs => (-1, cs)
    | '+' :: cs => (1, cs)
    | cs => (1, cs)
  let intPart := body.takeWhile (fun c => c ≠ '.')
  let rest := body.dropWhile (fun c => c ≠ '.')
  let fracPart := rest.drop 1
  let digitsOk (cs : List Char) : Bool := cs.all (fun c => c.isDigit)
  let toNat (cs : List Char) : Nat := cs.foldl (fun n c => n * 10 + (c.toNat - 48)) 0
  if digitsOk intPart ∧ digitsOk fracPart ∧ (intPart ≠ [] ∨ fracPart ≠ []) ∧
      (rest = [] ∨ rest.take 1 = ['.']) then
    some (Rat.divInt
      (sign * ((toNat intPart : ℤ) * (10 : ℤ) ^ fracPart.length + (toNat fracPart : ℤ)))
      ((10 : ℤ) ^ fracPart.length))
  else
    none

/-- Python's `float(x)` on a JSON value: numbers pass through, booleans coerce
to 0/1, strings are parsed (`ValueError` on failure), everything else raises
`TypeError`. -/
def pyFloat : Json → Except PyExc ℚ
  | Json.num q => Except.ok q
  | Json.bool b => Except.ok (if b then 1 else 0)
  | Json.str s =>
    match parseDecimal s with
    | some q => Except.ok q
    | none => Except.error PyExc.valueError
  | Json.null => Except.error PyExc.typeError
  | Json.arr _ => Except.error PyExc.typeError
  | Json.obj _ => Except.error PyExc.typeError

/-- Rendering used when a non-string JSON value lands in a `str`-typed slot of
the `CryptoQuote` dataclass.  The Python code stores the raw object without
coercion; no verified property inspects these malformed values, so a canonical
rendering suffices. -/
def asPyString : Json → String
  | Json.str s => s
  | Json.num q => toString q
  | Json.bool true => "True"
  | Json.bool false => "False"
  | Json.null => "None"
  | Json.arr _ => "<list>"
  | Json.obj _ => "<dict>"

/-! ## `quote.py`: `CryptoQuote` and `PriceQuoteCache` -/

/-- The `CryptoQuote` dataclass. -/
structure CryptoQuote where
  symbol : String
  name : String
  slug : String
  price_usd : ℚ
  percent_change_1h : ℚ
  percent_change_24h : ℚ
  percent_change_7d : ℚ
  market_cap : ℚ
  volume_24h : ℚ
  last_updated : String
deriving Repr, DecidableEq

/-- One entry of `_parse_api_response`'s loop body: build a `CryptoQuote` from
a `(symbol, info)` pair of the response's `data` mapping, in the source's
field-evaluation order. -/
def parseQuoteEntry (kv : String × Json) : Except PyExc CryptoQuote := do
  let info := kv.2
  let quoteField ← jsonGet info "quote" (Json.obj [])
  let quote_data ← jsonGet quoteField "USD" (Json.obj [])
  let symbolJ ← jsonGet info "symbol" (Json.str "")
  let nameJ ← jsonGet info "name" (Json.str "")
  let slugJ ← jsonGet info "slug" (Json.str "")
  let price ← pyFloat (← jsonGet quote_data "price" (Json.num 0))
  let pc1h ← pyFloat (← jsonGet quote_data "percent_change_1h" (Json.num 0))
  let pc24h ← pyFloat (← jsonGet quote_data "percent_change_24h" (Json.num 0))
  let pc7d ← pyFloat (← jsonGet quote_data "percent_change_7d" (Json.num 0))
  let mcap ← pyFloat (← jsonGet quote_data "market_cap" (Json.num 0))
  let vol ← pyFloat (← jsonGet quote_data "volume_24h" (Json.num 0))
  let lastJ ← jsonGet quote_data "last_updated" (Json.str "")
  Except.ok {
    symbol := asPyString symbolJ
    name := asPyString nameJ
    slug := asPyString slugJ
    price_usd := price
    percent_change_1h := pc1h
    percent_change_24h := pc24h
    percent_change_7d := pc7d
    market_cap := mcap
    volume_24h := vol
    last_updated := asPyString lastJ }

/-- Body of `_parse_api_response` before its `try/except` wrapper:
iterate over `data.get('data', {}).items()` building quotes. -/
def parseApiResponseBody (data : Json) : Except PyExc (List CryptoQuote) := do
  let d ← jsonGet data "data" (Json.obj [])
  let kvs ← jsonItems d
  kvs.mapM parseQuoteEntry

/-- `PriceQuoteCache._parse_api_response`.  The `except (KeyError, ValueError,
TypeError)` clause re-raises coercion failures as a generic `Exception`;
`AttributeError` (non-dict where a dict is required) is not caught there and
propagates unchanged. -/
def parse_api_response (data : Json) : Except PyExc (List CryptoQuote) :=
  match parseApiResponseBody data with
  | Except.ok quotes => Except.ok quotes
  | Except.error PyExc.valueError =>
      Except.error (PyExc.exception "Failed to parse API response")
  | Except.error PyExc.typeError =>
      Except.error (PyExc.exception "Failed to parse API response")
  | Except.error e => Except.error e

/-- One cache slot: `{'data': quotes, 'timestamp': t}`. -/
structure CacheEntry where
  data : List CryptoQuote
  timestamp : ℚ
deriving Repr, DecidableEq

/-- The mutable state of `PriceQuoteCache` relevant to caching (the aiohttp
session and API key carry no cache semantics). -/
structure PriceQuoteCache where
  cache_ttl : ℚ := 300
  max_cache_size : Nat := 1000
  cache : List (String × CacheEntry) := []
deriving Repr, DecidableEq

/-- Ordered-dict lookup (first binding). -/
def lookupKV {β : Type} (m : List (String × β)) (k : String) : Option β :=
  (m.find? (fun kv => kv.1 = k)).map (fun kv => kv.2)

/-- Ordered-dict assignment `m[k] = v`: overwrite in place, else append. -/
def insertKV {β : Type} (m : List (String × β)) (k : String) (v : β) :
    List (String × β) :=
  if m.any (fun kv => kv.1 = k) then
    m.map (fun kv => if kv.1 = k then (k, v) else kv)
  else
    m ++ [(k, v)]

/-- Lexicographic comparison of character lists by code point. -/
def charListLe : List Char → List Char → Bool
  | [], _ => true
  | _ :: _, [] => false
  | a :: as, b :: bs =>
    if a = b then charListLe as bs else decide (a.toNat < b.toNat)

/-- Python's `<=` on strings: lexicographic by Unicode code point.  This
agrees with Lean's `String` order but is written so closed instances
kernel-reduce. -/
def pyStrLe (a b : String) : Bool := charListLe a.toList b.toList

/-- The ordering relation `sorted` uses on strings. -/
def pyStrLeR (a b : String) : Prop := pyStrLe a b = true

instance : DecidableRel pyStrLeR := fun a b => by
  unfold pyStrLeR
  infer_instance

/-- `PriceQuoteCache._generate_cache_key`: comma-join of the sorted symbol
list.  Python's `sorted` is a stable sort; on strings any stable sort computes
the same function, here insertion sort. -/
def generate_cache_key (symbols : List String) : String :=
  String.intercalate "," (symbols.insertionSort pyStrLeR)

/-- `PriceQuoteCache._is_cache_valid`:
`(current_time - cache_entry['timestamp']) < self.cache_ttl`. -/
def is_cache_valid (c : PriceQuoteCache) (entry : CacheEntry) (current_time : ℚ) : Bool :=
  decide (qSub current_time entry.timestamp < c.cache_ttl)

theorem is_cache_valid_def (c : PriceQuoteCache) (entry : CacheEntry) (t : ℚ) :
    is_cache_valid c entry t = decide (t - entry.timestamp < c.cache_ttl) := by
  simp [is_cache_valid, qSub_eq_sub]

/-- The entries surviving the expiry sweep of `_cleanup_cache` at wall-clock
time `sys_time` (the sweep's internal `time.time()` call). -/
def aliveEntries (c : PriceQuoteCache) (sys_time : ℚ) : List (String × CacheEntry) :=
  c.cache.filter (fun kv => is_cache_valid c kv.2 sys_time)

/-- The timestamp order used by the size sweep
(`sorted(self.cache.items(), key=lambda x: x[1]['timestamp'])`). -/
def entryTimestampLe (a b : String × CacheEntry) : Prop :=
  a.2.timestamp ≤ b.2.timestamp

instance : DecidableRel entryTimestampLe := fun a b => by
  unfold entryTimestampLe
  infer_instance

/-- The size-limit half of `_cleanup_cache`: delete the
`len(cache) - max_cache_size` oldest-timestamped entries. -/
def evictOldest (alive : List (String × CacheEntry)) (maxSize : Nat) :
    List (String × CacheEntry) :=
  let sorted_items := alive.insertionSort entryTimestampLe
  let evicted := (sorted_items.take (alive.length - maxSize)).map (fun kv => kv.1)
  alive.filter (fun kv => ! evicted.contains kv.1)

/-- `PriceQuoteCache._cleanup_cache`: drop expired entries, then if the count
still exceeds `max_cache_size`, delete the oldest-timestamped entries until
the count equals the limit. -/
def cleanup_cache (c : PriceQuoteCache) (sys_time : ℚ) : PriceQuoteCache :=
  if c.max_cache_size < (aliveEntries c sys_time).length then
    { c with cache := evictOldest (aliveEntries c sys_time) c.max_cache_size }
  else
    { c with cache := aliveEntries c sys_time }

/-- The cache-miss tail of `fetch`: try the upstream request (outcome given by
`upstream`; `none` models any raised exception), store on success, fall back
to whatever entry is still present on failure, else return `[]`. -/
def fetchMiss (c : PriceQuoteCache) (key : String) (current_time : ℚ)
    (upstream : Option (List CryptoQuote)) : List CryptoQuote × PriceQuoteCache :=
  match upstream with
  | some quotes =>
      (quotes, { c with cache := insertKV c.cache key ⟨quotes, current_time⟩ })
  | none =>
      match lookupKV c.cache key with
      | some entry => (entry.data, c)
      | none => ([], c)

/-- `PriceQuoteCache.fetch`.  `current_time` is the caller-supplied argument;
`sys_time` is the `time.time()` read inside `_cleanup_cache`.  The return type
carries no `Except`: the method never raises past its boundary. -/
def fetch (c : PriceQuoteCache) (symbols : List String) (current_time sys_time : ℚ)
    (upstream : Option (List CryptoQuote)) : List CryptoQuote × PriceQuoteCache :=
  if symbols = [] then ([], c)
  else
    match lookupKV (cleanup_cache c sys_time).cache (generate_cache_key symbols) with
    | some entry =>
        if is_cache_valid (cleanup_cache c sys_time) entry current_time then
          (entry.data, cleanup_cache c sys_time)
        else
          fetchMiss (cleanup_cache c sys_time) (generate_cache_key symbols) current_time upstream
    | none =>
        fetchMiss (cleanup_cache c sys_time) (generate_cache_key symbols) current_time upstream

/-- Observable side effects of `_fetch_from_api`: it always awaits the rate
limiter first, then issues the HTTP request. -/
inductive ApiEvent where
  | rateLimitWait
  | httpRequest
deriving Repr, DecidableEq

/-- `PriceQuoteCache._fetch_from_api`, reduced to its effect trace and outcome
(`upstream` is the request's result; `error` models any raised exception). -/
def fetch_from_api (upstream : Except String (List CryptoQuote)) :
    Except String (List CryptoQuote) × List ApiEvent :=
  (upstream, [ApiEvent.rateLimitWait, ApiEvent.httpRequest])

/-- `PriceQuoteCache.fetch_no_cache`:
`return await self._fetch_from_api(symbols) if symbols else []`. -/
def fetch_no_cache (symbols : List String)
    (upstream : Except String (List CryptoQuote)) :
    Except String (List CryptoQuote) × List ApiEvent :=
  if symbols = [] then (Except.ok [], []) else fetch_from_api upstream

/-! ## `updaters.py`: the voice-channel reconciler

The category's voice channels are modelled as an ordered list; a channel's
`position` attribute is its index in that list.  Channels are identified by
their Discord id (`Nat`); the Python code holds object references, which the
id plays the role of.  Each Discord REST call becomes both a recorded
`ChannelOp` and a pure transformation of the list, with position edits taking
effect immediately (the collaborator is assumed to honour them, as in the
spec's ordering guarantee). -/

/-- A voice channel: Discord id plus display name. -/
structure VoiceChannel where
  id : Nat
  name : String
deriving Repr, DecidableEq

/-- The operations the reconciler issues against Discord.  `create` records
the id Discord assigned to the new channel; `position = none` means the
channel was created appended at the end of the category. -/
inductive ChannelOp where
  | create (cid : Nat) (name : String) (position : Option Nat)
  | rename (cid : Nat) (new : String)
  | move (cid : Nat) (position : Nat)
  | delete (cid : Nat)
deriving Repr, DecidableEq

/-- The first whitespace token of a channel name: `channel.name.split(' ')[0]`
(`split(' ')` always yields a non-empty list, so the `if channel_parts:` guard
in the source is always true; the first element is the longest prefix free of
`' '`). -/
def channelSymbol (name : String) : String :=
  String.mk (name.toList.takeWhile (fun ch => ch ≠ ' '))

/-- Extracted key of a channel. -/
def chanKey (c : VoiceChannel) : String := channelSymbol c.name

/-- Extracted keys, in container order. -/
def keysOf (chans : List VoiceChannel) : List String := chans.map chanKey

/-- Channel ids, in container order. -/
def idsOf (chans : List VoiceChannel) : List Nat := chans.map (fun c => c.id)

/-- Look a channel object up by id (live read of the container). -/
def findChannel (chans : List VoiceChannel) (cid : Nat) : Option VoiceChannel :=
  chans.find? (fun c => c.id = cid)

/-- `channel.position`: the channel's current index in the container. -/
def channelPosition (chans : List VoiceChannel) (cid : Nat) : Option Nat :=
  chans.findIdx? (fun c => c.id = cid)

/-- `channel.edit(name=new)`. -/
def renameChannel (chans : List VoiceChannel) (cid : Nat) (new : String) :
    List VoiceChannel :=
  chans.map (fun c => if c.id = cid then { c with name := new } else c)

/-- Insert a channel at a given index (indices past the end append). -/
def insertChannelAt (chans : List VoiceChannel) (pos : Nat) (c : VoiceChannel) :
    List VoiceChannel :=
  chans.take pos ++ [c] ++ chans.drop pos

/-- `channel.edit(position=pos)`: remove the channel from its current slot and
re-insert it at `pos`. -/
def moveChannel (chans : List VoiceChannel) (cid : Nat) (pos : Nat) :
    List VoiceChannel :=
  match findChannel chans cid with
  | none => chans
  | some c => insertChannelAt (chans.filter (fun d => d.id != cid)) pos c

/-- `channel.delete()`. -/
def deleteChannel (chans : List VoiceChannel) (cid : Nat) : List VoiceChannel :=
  chans.filter (fun d => d.id != cid)

/-- The two display icons from the styles file. -/
structure Styles where
  price_up_icon : String
  price_down_icon : String
deriving Repr, DecidableEq

/-- `⌊q·10^digits + 1/2⌋`, computed on the numerator/denominator so closed
instances kernel-reduce: for `q = n/d` (with `d > 0`) the value is
`⌊(2·n·10^digits + d) / (2·d)⌋`. -/
def roundHalfUpScaled (q : ℚ) (digits : Nat) : ℤ :=
  Int.fdiv (q.num * (10 : ℤ) ^ digits * 2 + (q.den : ℤ)) ((q.den : ℤ) * 2)

/-- Fixed-point decimal rendering backing `format_price`.  Python formats the
float with round-half-even on its decimal expansion; the verified properties
never depend on the digits, only on `format_price` being a pure function, so
round-half-up on the rational suffices. -/
def ratToDecimalString (q : ℚ) (digits : Nat) : String :=
  let scaled : ℤ := roundHalfUpScaled q digits
  let sign := if scaled < 0 then "-" else ""
  let m := scaled.natAbs
  let base := 10 ^ digits
  let ip := toString (m / base)
  let fpStr := toString (m % base)
  if digits = 0 then sign ++ ip
  else
    sign ++ ip ++ "." ++
      String.mk (List.replicate (digits - fpStr.length) '0') ++ fpStr

/-- `VoiceChannelUpdater._format_price` (a verbatim copy of
`quote.format_price`): threshold-dependent decimal places with a `$` prefix.
The thresholds `0.01` and `1000` are written via `Rat.divInt` / numerals so
the comparisons kernel-reduce. -/
def format_price (price : ℚ) : String :=
  if price < Rat.divInt 1 100 then "$" ++ ratToDecimalString price 6
  else if price < 1 then "$" ++ ratToDecimalString price 4
  else if price < 1000 then "$" ++ ratToDecimalString price 2
  else "$" ++ ratToDecimalString price 0

/-- `VoiceChannelUpdater._create_channel_name`:
`f"{quote.symbol} {emoji} {price_str}"`. -/
def create_channel_name (styles : Styles) (q : CryptoQuote) : String :=
  let emoji := if 0 ≤ q.percent_change_1h then styles.price_up_icon
               else styles.price_down_icon
  q.symbol ++ " " ++ emoji ++ " " ++ format_price q.price_usd

/-- `sorted(quotes, key=lambda x: x.market_cap, reverse=True)`: stable
descending sort by market cap (stable insertion sort computes the same list
as Python's stable sort). -/
def sortQuotesByMarketCap (quotes : List CryptoQuote) : List CryptoQuote :=
  quotes.insertionSort (fun a b => b.market_cap ≤ a.market_cap)

/-- `existing_channels`: dict from extracted key to channel, built in
container order (later channels overwrite the value of a repeated key).  The
stored value is the channel's id, standing for the Python object reference. -/
def buildChannelMap (chans : List VoiceChannel) : List (String × Nat) :=
  chans.foldl (fun m c => insertKV m (chanKey c) c.id) []

/-- The per-quote loop of `update_voice_channels_for_guild`: for the `i`-th
quote in rank order, rename/reposition its existing channel as needed or
create a new channel at position `i`, accumulating issued operations and the
processed-symbol set.  Reads of `channel.name`/`channel.position` are live
reads of the container; the `none` fallbacks for `findChannel` and
`channelPosition` are unreachable when the map's ids are container members. -/
def fullPassLoop (styles : Styles) (byKey : List (String × Nat)) :
    List CryptoQuote → Nat → List VoiceChannel → Nat → List ChannelOp →
    List String → List VoiceChannel × Nat × List ChannelOp × List String
  | [], _, chans, nid, ops, processed => (chans, nid, ops, processed)
  | q :: rest, i, chans, nid, ops, processed =>
    let cname := create_channel_name styles q
    match lookupKV byKey q.symbol with
    | some cid =>
      let st1 : List VoiceChannel × List ChannelOp :=
        match findChannel chans cid with
        | some c =>
          if c.name ≠ cname then
            (renameChannel chans cid cname, ops ++ [ChannelOp.rename cid cname])
          else (chans, ops)
        | none => (chans, ops)
      let st2 : List VoiceChannel × List ChannelOp :=
        match channelPosition st1.1 cid with
        | some p =>
          if p ≠ i then (moveChannel st1.1 cid i, st1.2 ++ [ChannelOp.move cid i])
          else st1
        | none => st1
      fullPassLoop styles byKey rest (i + 1) st2.1 nid st2.2 (processed ++ [q.symbol])
    | none =>
      let newc : VoiceChannel := ⟨nid, cname⟩
      fullPassLoop styles byKey rest (i + 1) (insertChannelAt chans i newc) (nid + 1)
        (ops ++ [ChannelOp.create nid cname (some i)]) (processed ++ [q.symbol])

/-- `VoiceChannelUpdater.update_voice_channels_for_guild`, from the point the
quotes have been fetched: early-return on an empty quote list, build the
key→channel map, walk the quotes in descending market-cap order, then delete
every mapped channel whose key was never processed.  `nid` is the next fresh
Discord id handed out to created channels. -/
def update_voice_channels_for_guild (styles : Styles) (quotes : List CryptoQuote)
    (chans : List VoiceChannel) (nid : Nat) : List VoiceChannel × List ChannelOp :=
  if quotes = [] then (chans, [])
  else
    let byKey := buildChannelMap chans
    let sorted_quotes := sortQuotesByMarketCap quotes
    let r := fullPassLoop styles byKey sorted_quotes 0 chans nid [] []
    byKey.foldl
      (fun (st : List VoiceChannel × List ChannelOp) kv =>
        if kv.1 ∈ r.2.2.2 then st
        else (deleteChannel st.1 kv.2, st.2 ++ [ChannelOp.delete kv.2]))
      (r.1, r.2.2.1)

/-- The `for i, quote in enumerate(sorted_quotes): if quote.symbol == ticker:
... break` search in `add_voice_ticker`: first index and quote matching the
ticker. -/
def findQuoteIdx : List CryptoQuote → String → Option (Nat × CryptoQuote)
  | [], _ => none
  | q :: rest, t =>
    if q.symbol = t then some (0, q)
    else (findQuoteIdx rest t).map (fun p => (p.1 + 1, p.2))

/-- `VoiceChannelUpdater.add_voice_ticker`, from the point the quotes for the
guild's full ticker set have been fetched: bail out on no quotes or an absent
ticker, create the new channel appended at the end, then reposition only that
channel — to the top when its rank is 0, otherwise to just after the channel
currently at rank-1 among the pre-existing channels, when such a channel
exists.  The `none` fallbacks mirror list accesses the guards make
unreachable. -/
def add_voice_ticker (styles : Styles) (quotes : List CryptoQuote) (ticker : String)
    (chans : List VoiceChannel) (nid : Nat) : List VoiceChannel × List ChannelOp :=
  if quotes = [] then (chans, [])
  else
    let sorted_quotes := sortQuotesByMarketCap quotes
    match findQuoteIdx sorted_quotes ticker with
    | none => (chans, [])
    | some tq =>
      let target_position := tq.1
      let channel_name := create_channel_name styles tq.2
      let new_channel : VoiceChannel := ⟨nid, channel_name⟩
      let chans1 := chans ++ [new_channel]
      let existing_channels := chans1.filter (fun c => c.id != nid)
      let createOp := ChannelOp.create nid channel_name none
      if target_position = 0 then
        (moveChannel chans1 nid 0, [createOp, ChannelOp.move nid 0])
      else if target_position < existing_channels.length then
        match existing_channels.get? (target_position - 1) with
        | some before =>
          match channelPosition chans1 before.id with
          | some bpos =>
            (moveChannel chans1 nid (bpos + 1), [createOp, ChannelOp.move nid (bpos + 1)])
          | none => (chans1, [createOp])
        | none => (chans1, [createOp])
      else (chans1, [createOp])

/-- `VoiceChannelUpdater.remove_voice_ticker`, from the point the category is
in hand: delete the first channel whose extracted key equals the ticker, then
stop. -/
def remove_voice_ticker (ticker : String) (chans : List VoiceChannel) :
    List VoiceChannel × List ChannelOp :=
  match chans.find? (fun c => chanKey c = ticker) with
  | none => (chans, [])
  | some c => (deleteChannel chans c.id, [ChannelOp.delete c.id])

/-! ## The scheduler loops of `updaters.py` -/

/-- `VoiceChannelUpdater.update_loop` / `MessageTickerUpdater.update_loop`,
run for a bounded number of boundaries: each iteration awaits the boundary
timer (pure timing, no state) and then the tick callback, whose outcome is
`callback k` (`error` modelling a raised exception).  The source has no
`try/except` around the callback, so an error aborts the recursion exactly as
an exception terminates the `while True:` loop. -/
def update_loop_run (callback : Nat → Except String Unit) : Nat → Except String Unit
  | 0 => Except.ok ()
  | n + 1 =>
    match callback n with
    | Except.error e => Except.error e
    | Except.ok _ => update_loop_run callback n

/-! ## Concrete fixtures used by witnesses and counterexamples -/

/-- Concrete styles (ASCII stand-ins for the up/down icons). -/
def testStyles : Styles := ⟨"U", "D"⟩

/-- A concrete Bitcoin quote. -/
def qBTC : CryptoQuote := ⟨"BTC", "Bitcoin", "bitcoin", 100, 1, 2, 3, 3000, 50, "t"⟩

/-- A concrete Ether quote (price 0.5, negative 1h change). -/
def qETH : CryptoQuote := ⟨"ETH", "Ether", "ethereum", Rat.divInt 1 2, -1, 2, 3, 2000, 50, "t"⟩

/-- A concrete Solana quote whose market cap lies between BTC's and ETH's. -/
def qSOL : CryptoQuote := ⟨"SOL", "Solana", "solana", 150, 1, 2, 3, 2500, 50, "t"⟩

/-- A container holding a stale BTC channel and a foreign, manually created
channel (extracted key `General`, not a tracked symbol). -/
def chansWithForeign : List VoiceChannel := [⟨1, "BTC U $90.00"⟩, ⟨2, "General chat"⟩]

/-- A cache limited to one entry. -/
def smallCache : PriceQuoteCache := { cache_ttl := 300, max_cache_size := 1, cache := [] }

/-- A cache holding one BTC entry with timestamp 0. -/
def cacheWithBTC : PriceQuoteCache :=
  { cache_ttl := 300, max_cache_size := 1000, cache := [("BTC", ⟨[qBTC], 0⟩)] }

/-! ## Claims -/

/-- C10: calling `fetch_no_cache` with an empty symbol list returns an empty
sequence without invoking the rate limiter and without issuing any upstream
request — the effect trace is empty, so `_rate_limit` is never awaited and no
HTTP request is made, whatever the upstream would have answered. -/
theorem c10_fetch_no_cache_empty_short_circuit (upstream : Except String (List CryptoQuote)) :
    fetch_no_cache [] upstream = (Except.ok [], []) := rfl

/-- C4 counterexample: with a callback that raises on the first tick, the
scheduler loop run for five boundaries terminates immediately with that
error instead of proceeding to the next boundary — the claim that callback
errors are caught at the loop boundary is false, as there is no `try/except`
in either `update_loop`. -/
theorem c4_counterexample :
    update_loop_run (fun _ => Except.error "callback failure") 5 =
      Except.error "callback failure" := rfl

/-- C4 (amended): an error raised inside the invoked callback is NOT caught
at the loop boundary: it propagates out of `update_loop` and terminates the
while-true timing loop at the very boundary where it occurred. -/
theorem c4_amended (cb : Nat → Except String Unit) (n : Nat) (e : String)
    (h : cb n = Except.error e) :
    update_loop_run cb (n + 1) = Except.error e := by
  unfold update_loop_run
  rw [h]

theorem c4_witness :
    update_loop_run (fun k => if k = 2 then Except.error "boom" else Except.ok ()) 3 =
      Except.error "boom" :=
  c4_amended _ 2 "boom" (by rfl)

/-- C3: for every call to `fetch` with non-empty symbols and a failing
upstream request, the result is exactly the quotes of the entry (possibly
expired relative to `current_time`) still present for the canonical key after
the eviction sweep, and the empty sequence when no such entry exists.  The
return type is a plain list — modelling that `fetch` catches every exception
(`except Exception`) and never raises past its own boundary. -/
theorem c3_fetch_stale_fallback (c : PriceQuoteCache) (symbols : List String)
    (current_time sys_time : ℚ) (h : symbols ≠ []) :
    (fetch c symbols current_time sys_time none).1 =
      (match lookupKV (cleanup_cache c sys_time).cache (generate_cache_key symbols) with
       | some entry => entry.data
       | none => []) := by
  unfold fetch
  rw [if_neg h]
  cases hl : lookupKV (cleanup_cache c sys_time).cache (generate_cache_key symbols) with
  | none => simp [hl, fetchMiss]
  | some entry =>
    simp only [hl]
    by_cases hv : is_cache_valid (cleanup_cache c sys_time) entry current_time
    · simp [hv]
    · simp [hv, fetchMiss, hl]

/-- Witness for C3: a genuinely expired BTC entry (age 1000 ≥ ttl 300 at the
caller's clock, but alive at the sweep's clock 100) is returned unchanged when
the upstream fails. -/
theorem c3_witness : (fetch cacheWithBTC ["BTC"] 1000 100 none).1 = [qBTC] :=
  (c3_fetch_stale_fallback cacheWithBTC ["BTC"] 1000 100 (by decide)).trans (by decide)

/-- C2 counterexample: a response body with no `data` mapping — an unexpected
shape per the claim — parses to `Except.ok []`: no error is surfaced and the
empty quote list is returned exactly as if the upstream had reported zero
quotes. -/
theorem c2_counterexample : parse_api_response (Json.obj []) = Except.ok [] := rfl

/-- C2 (amended): response parsing surfaces an error only when a numeric
field fails `float` coercion (re-raised as a generic parse `Exception`) or a
value that must be a mapping is not one (`AttributeError`).  A body with no
`data` mapping parses successfully to the empty list, and an entry missing
the nested USD quote object parses to a quote with empty-string and zero
numeric fields — neither shape surfaces an error. -/
theorem c2_amended :
    (∀ kvs : List (String × Json), kvs.find? (fun kv => kv.1 = "data") = none →
      parse_api_response (Json.obj kvs) = Except.ok []) ∧
    (∀ sym s, parse_api_response
        (Json.obj [("data", Json.obj [(sym, Json.obj [("symbol", Json.str s)])])]) =
      Except.ok [⟨s, "", "", 0, 0, 0, 0, 0, 0, ""⟩]) ∧
    (∀ sym, parse_api_response
        (Json.obj [("data", Json.obj
          [(sym, Json.obj [("quote", Json.obj [("USD", Json.obj [("price", Json.null)])])])])]) =
      Except.error (PyExc.exception "Failed to parse API response")) := by
  refine ⟨fun kvs h => ?_, fun sym s => rfl, fun sym => rfl⟩
  have hd : dictGet kvs "data" (Json.obj []) = Json.obj [] := by
    unfold dictGet
    rw [h]
  unfold parse_api_response parseApiResponseBody
  simp [jsonGet, hd, jsonItems]
  rfl

theorem c2_witness :
    parse_api_response (Json.obj [("status", Json.null)]) = Except.ok [] ∧
    parse_api_response
        (Json.obj [("data", Json.obj [("BTC", Json.obj [("symbol", Json.str "BTC")])])]) =
      Except.ok [⟨"BTC", "", "", 0, 0, 0, 0, 0, 0, ""⟩] ∧
    parse_api_response
        (Json.obj [("data", Json.obj
          [("BTC", Json.obj [("quote", Json.obj [("USD", Json.obj [("price", Json.null)])])])])]) =
      Except.error (PyExc.exception "Failed to parse API response") :=
  ⟨c2_amended.1 _ (by rfl), c2_amended.2.1 "BTC" "BTC", c2_amended.2.2 "BTC"⟩

/-! Order facts about the string comparison used by `generate_cache_key`. -/

theorem char_eq_of_toNat_eq {a b : Char} (h : a.toNat = b.toNat) : a = b :=
  Char.ext (UInt32.ext h)

theorem charListLe_total : ∀ as bs : List Char,
    charListLe as bs = true ∨ charListLe bs as = true
  | [], _ => Or.inl rfl
  | _ :: _, [] => Or.inr rfl
  | a :: as, b :: bs => by
    unfold charListLe
    by_cases hab : a = b
    · subst hab
      rw [if_pos rfl, if_pos rfl]
      exact charListLe_total as bs
    · have hba : ¬ b = a := fun h => hab h.symm
      rw [if_neg hab, if_neg hba]
      rcases Nat.lt_or_ge a.toNat b.toNat with h | h
      · left; simpa using h
      · rcases Nat.lt_or_ge b.toNat a.toNat with h2 | h2
        · right; simpa using h2
        · exact absurd (char_eq_of_toNat_eq (Nat.le_antisymm h2 h)) hab

theorem charListLe_trans : ∀ as bs cs : List Char,
    charListLe as bs = true → charListLe bs cs = true → charListLe as cs = true
  | [], _, _ => fun _ _ => rfl
  | _ :: _, [], _ => fun hab _ => by simp [charListLe] at hab
  | _ :: _, _ :: _, [] => fun _ hbc => by simp [charListLe] at hbc
  | a :: as, b :: bs, c :: cs => by
    intro hab hbc
    unfold charListLe at hab hbc ⊢
    by_cases h1 : a = b
    · subst h1
      rw [if_pos rfl] at hab
      by_cases h2 : a = c
      · subst h2
        rw [if_pos rfl] at hbc ⊢
        exact charListLe_trans as bs cs hab hbc
      · rw [if_neg h2] at hbc ⊢
        exact hbc
    · rw [if_neg h1] at hab
      have hlt1 : a.toNat < b.toNat := by simpa using hab
      by_cases h2 : b = c
      · subst h2
        rw [if_neg h1]
        simpa using hlt1
      · rw [if_neg h2] at hbc
        have hlt2 : b.toNat < c.toNat := by simpa using hbc
        have hlt : a.toNat < c.toNat := Nat.lt_trans hlt1 hlt2
        have h3 : ¬ a = c := fun h => by
          subst h
          exact Nat.lt_irrefl _ hlt
        rw [if_neg h3]
        simpa using hlt

theorem charListLe_antisymm : ∀ as bs : List Char,
    charListLe as bs = true → charListLe bs as = true → as = bs
  | [], [] => fun _ _ => rfl
  | [], _ :: _ => fun _ hba => by simp [charListLe] at hba
  | _ :: _, [] => fun hab _ => by simp [charListLe] at hab
  | a :: as, b :: bs => by
    intro hab hba
    unfold charListLe at hab hba
    by_cases h1 : a = b
    · subst h1
      rw [if_pos rfl] at hab hba
      rw [charListLe_antisymm as bs hab hba]
    · have h2 : ¬ b = a := fun h => h1 h.symm
      rw [if_neg h1] at hab
      rw [if_neg h2] at hba
      have hlt1 : a.toNat < b.toNat := by simpa using hab
      have hlt2 : b.toNat < a.toNat := by simpa using hba
      exact absurd (Nat.lt_trans hlt1 hlt2) (Nat.lt_irrefl _)

instance : IsTotal String pyStrLeR :=
  ⟨fun a b => charListLe_total a.toList b.toList⟩

instance : IsTrans String pyStrLeR :=
  ⟨fun a b c => charListLe_trans a.toList b.toList c.toList⟩

instance : IsAntisymm String pyStrLeR :=
  ⟨fun _ _ hab hba => String.toList_inj.mp (charListLe_antisymm _ _ hab hba)⟩

/-- C8 counterexample: two symbol lists that differ only in letter case map
to different cache keys — `_generate_cache_key` performs no case
normalization, so the claimed case-insensitive canonicalization is false. -/
theorem c8_counterexample :
    generate_cache_key ["btc", "eth"] ≠ generate_cache_key ["ETH", "BTC"] := by decide

/-- C8 (amended): the cache key is the comma-join of the sorted symbol list —
canonical up to reordering, so any two inputs that are permutations of each
other map to the same cache key and hence the same cache entry — but it is
case-sensitive: inputs differing only in letter case map to different keys. -/
theorem c8_amended (xs ys : List String) (h : xs.Perm ys) :
    generate_cache_key xs = generate_cache_key ys := by
  unfold generate_cache_key
  congr 1
  exact List.eq_of_perm_of_sorted
    (((List.perm_insertionSort pyStrLeR xs).trans h).trans
      (List.perm_insertionSort pyStrLeR ys).symm)
    (List.sorted_insertionSort pyStrLeR xs)
    (List.sorted_insertionSort pyStrLeR ys)

theorem c8_witness : generate_cache_key ["ETH", "BTC"] = generate_cache_key ["BTC", "ETH"] :=
  c8_amended _ _ (by decide)

/-! Helper lemmas about association-list keys and the eviction sweep. -/

instance : IsTotal (String × CacheEntry) entryTimestampLe :=
  ⟨fun a b => le_total a.2.timestamp b.2.timestamp⟩

instance : IsTrans (String × CacheEntry) entryTimestampLe :=
  ⟨fun _ _ _ hab hbc => le_trans hab hbc⟩

theorem filter_comp_map {α β : Type} (f : α → β) (p : β → Bool) (l : List α) :
    (l.filter (fun a => p (f a))).map f = (l.map f).filter p := by
  induction l with
  | nil => rfl
  | cons a l ih =>
    by_cases h : p (f a) <;> simp [List.filter_cons, h, ih]

theorem keys_nodup_filter {β : Type} (m : List (String × β)) (p : String × β → Bool)
    (h : (m.map Prod.fst).Nodup) : ((m.filter p).map Prod.fst).Nodup :=
  ((m.filter_sublist).map Prod.fst).nodup h

/-- Counting kept entries after removing a duplicate-free sub-collection of
keys. -/
theorem length_filter_not_contains (K E : List String) (hK : K.Nodup) (hE : E.Nodup)
    (hsub : ∀ e ∈ E, e ∈ K) :
    (K.filter (fun x => ! E.contains x)).length = K.length - E.length := by
  have hperm : List.Perm (K.filter (fun x => E.contains x)) E := by
    apply List.perm_of_nodup_nodup_toFinset_eq (hK.filter _) hE
    ext x
    simp only [List.mem_toFinset, List.mem_filter, List.contains, List.elem_iff]
    exact ⟨fun hx => hx.2, fun hx => ⟨hsub x hx, hx⟩⟩
  have hlen : (K.filter (fun x => E.contains x)).length = E.length := hperm.length_eq
  have htotal := (List.filter_append_perm (fun x => E.contains x) K).length_eq
  rw [List.length_append, hlen] at htotal
  omega

/-- In the over-limit case, the sweep keeps exactly `maxSize` entries, and
every removed entry is at least as old as every kept one. -/
theorem evictOldest_exact (alive : List (String × CacheEntry)) (maxSize : Nat)
    (hnd : (alive.map Prod.fst).Nodup) (hover : maxSize < alive.length) :
    (evictOldest alive maxSize).length = maxSize ∧
    ∀ kv ∈ alive, kv ∉ evictOldest alive maxSize →
      ∀ kv' ∈ evictOldest alive maxSize, kv.2.timestamp ≤ kv'.2.timestamp := by
  have hperm : List.Perm (alive.insertionSort entryTimestampLe) alive :=
    List.perm_insertionSort entryTimestampLe alive
  have hsorted : List.Sorted entryTimestampLe (alive.insertionSort entryTimestampLe) :=
    List.sorted_insertionSort entryTimestampLe alive
  set sorted := alive.insertionSort entryTimestampLe with hsorted_def
  set k := alive.length - maxSize with hk
  set E := (sorted.take k).map Prod.fst with hE_def
  have hsortkeys : (sorted.map Prod.fst).Nodup := ((hperm.map Prod.fst).nodup_iff).mpr hnd
  have hEnodup : E.Nodup := by
    rw [hE_def, List.map_take]
    exact (List.take_sublist _ _).nodup hsortkeys
  have hEsub : ∀ e ∈ E, e ∈ alive.map Prod.fst := by
    intro e he
    rw [hE_def, List.map_take] at he
    exact (hperm.map Prod.fst).mem_iff.mp ((List.take_sublist _ _).mem he)
  have hkeymem : ∀ kv ∈ alive, (E.contains kv.1 = true) ↔ kv ∈ sorted.take k := by
    intro kv hkv
    constructor
    · intro hc
      have hc2 : kv.1 ∈ E := List.elem_iff.mp hc
      rcases List.mem_map.mp (by rw [hE_def] at hc2; exact hc2) with ⟨u, hu, hufst⟩
      have hkv2 : kv ∈ sorted := hperm.mem_iff.mpr hkv
      have hu2 : u ∈ sorted := (List.take_sublist _ _).mem hu
      have := List.inj_on_of_nodup_map hsortkeys hu2 hkv2 hufst
      rwa [← this]
    · intro hmem
      exact List.elem_iff.mpr (by rw [hE_def]; exact List.mem_map.mpr ⟨kv, hmem, rfl⟩)
  constructor
  · show (alive.filter (fun kv => ! E.contains kv.1)).length = maxSize
    have := length_filter_not_contains (alive.map Prod.fst) E hnd hEnodup hEsub
    have hmapped : ((alive.filter (fun kv => ! E.contains kv.1)).map Prod.fst) =
        (alive.map Prod.fst).filter (fun x => ! E.contains x) :=
      filter_comp_map Prod.fst (fun x => ! E.contains x) alive
    have hlen : (alive.filter (fun kv => ! E.contains kv.1)).length =
        ((alive.map Prod.fst).filter (fun x => ! E.contains x)).length := by
      rw [← hmapped, List.length_map]
    rw [hlen, this, List.length_map]
    have hElen : E.length = k := by
      rw [hE_def, List.length_map, List.length_take, hsorted_def]
      rw [(List.perm_insertionSort entryTimestampLe alive).length_eq]
      omega
    omega
  · intro kv hkv hnotin kv' hkv'
    have hremoved : kv ∈ sorted.take k := by
      apply (hkeymem kv hkv).mp
      by_contra hc
      apply hnotin
      show kv ∈ alive.filter (fun kv => ! E.contains kv.1)
      rw [List.mem_filter]
      exact ⟨hkv, by simpa using hc⟩
    have hkept : kv' ∈ sorted.drop k := by
      have h1 : kv' ∈ alive ∧ (! E.contains kv'.1) = true := List.mem_filter.mp hkv'
      have h2 : kv' ∈ sorted := hperm.mem_iff.mpr h1.1
      have h2' : kv' ∈ List.take k sorted ++ List.drop k sorted := by
        rw [List.take_append_drop]
        exact h2
      rcases List.mem_append.mp h2' with h3 | h3
      · exact absurd ((hkeymem kv' h1.1).mpr h3) (by simpa using h1.2)
      · exact h3
    have hpw : List.Pairwise entryTimestampLe (List.take k sorted ++ List.drop k sorted) := by
      rw [List.take_append_drop]
      exact hsorted
    exact (List.pairwise_append.mp hpw).2.2 kv hremoved kv' hkept
theorem cleanup_max_cache_size (c : PriceQuoteCache) (st : ℚ) :
    (cleanup_cache c st).max_cache_size = c.max_cache_size := by
  unfold cleanup_cache
  split <;> rfl

theorem cleanup_keys_nodup (c : PriceQuoteCache) (st : ℚ)
    (h : (c.cache.map Prod.fst).Nodup) :
    ((cleanup_cache c st).cache.map Prod.fst).Nodup := by
  unfold cleanup_cache
  split
  · exact keys_nodup_filter _ _ (keys_nodup_filter _ _ h)
  · exact keys_nodup_filter _ _ h

theorem cleanup_length_le (c : PriceQuoteCache) (st : ℚ)
    (h : (c.cache.map Prod.fst).Nodup) :
    (cleanup_cache c st).cache.length ≤ c.max_cache_size := by
  unfold cleanup_cache
  split
  · rename_i hover
    have h1 := (evictOldest_exact (aliveEntries c st) c.max_cache_size
      (keys_nodup_filter _ _ h) hover).1
    exact h1.le
  · rename_i hnot
    exact Nat.le_of_not_lt hnot

theorem insertKV_length_le {β : Type} (m : List (String × β)) (k : String) (v : β) :
    (insertKV m k v).length ≤ m.length + 1 := by
  unfold insertKV
  split
  · rw [List.length_map]
    omega
  · rw [List.length_append]
    simp

theorem insertKV_keys_nodup {β : Type} (m : List (String × β)) (k : String) (v : β)
    (h : (m.map Prod.fst).Nodup) : ((insertKV m k v).map Prod.fst).Nodup := by
  unfold insertKV
  split
  · have heq : (m.map (fun kv => if kv.1 = k then (k, v) else kv)).map Prod.fst =
        m.map Prod.fst := by
      rw [List.map_map]
      apply List.map_congr_left
      intro kv _
      by_cases hkv : kv.1 = k <;> simp [hkv]
    rw [heq]
    exact h
  · rename_i hany
    rw [List.map_append]
    rw [List.nodup_append]
    refine ⟨h, List.nodup_singleton k, ?_⟩
    intro x hx hxk
    apply hany
    rcases List.mem_map.mp hx with ⟨kv, hkv, hfst⟩
    rw [List.any_eq_true]
    refine ⟨kv, hkv, ?_⟩
    have : x = k := by simpa using hxk
    simp [hfst, this]

theorem fetchMiss_facts (c1 : PriceQuoteCache) (key : String) (ct : ℚ)
    (upstream : Option (List CryptoQuote)) (h : (c1.cache.map Prod.fst).Nodup) :
    ((fetchMiss c1 key ct upstream).2.cache.map Prod.fst).Nodup ∧
    (fetchMiss c1 key ct upstream).2.cache.length ≤ c1.cache.length + 1 ∧
    (fetchMiss c1 key ct upstream).2.max_cache_size = c1.max_cache_size := by
  unfold fetchMiss
  cases upstream with
  | some quotes =>
    exact ⟨insertKV_keys_nodup _ _ _ h, insertKV_length_le _ _ _, rfl⟩
  | none =>
    dsimp only
    cases hl : lookupKV c1.cache key with
    | some entry =>
      simp only [hl]
      exact ⟨h, by omega, trivial⟩
    | none =>
      simp only [hl]
      exact ⟨h, by omega, trivial⟩

/-- C7 counterexample: with `max_cache_size = 1`, two successful fetches of
distinct fresh keys leave TWO entries in the cache — the size bound is
exceeded after a fetch, because the sweep runs only at the start of the next
fetch and the successful store is not followed by an eviction. -/
theorem c7_counterexample :
    (fetch (fetch smallCache ["A"] 0 0 (some [qBTC])).2 ["B"] 0 0 (some [qETH])).2.cache.length
        = 2 ∧
    (fetch (fetch smallCache ["A"] 0 0 (some [qBTC])).2 ["B"] 0 0
        (some [qETH])).2.max_cache_size = 1 :=
  ⟨by decide, by decide⟩

/-- C7 (amended): after any fetch the cache holds at most
`max_cache_size + 1` entries — one more than the claimed bound, since the
sweep runs only at the START of `fetch` and a successful cache miss then
inserts one further entry — with key-uniqueness and the configured limit
preserved so the bound propagates along any sequence of fetches; and whenever
the size bound is exceeded at the sweep, the removed entries are
oldest-timestamped ones, removed until the count equals the limit exactly. -/
theorem c7_amended (c : PriceQuoteCache) (symbols : List String) (ct st : ℚ)
    (upstream : Option (List CryptoQuote))
    (hnd : (c.cache.map Prod.fst).Nodup) (hlen : c.cache.length ≤ c.max_cache_size + 1) :
    (((fetch c symbols ct st upstream).2.cache.map Prod.fst).Nodup ∧
     (fetch c symbols ct st upstream).2.cache.length ≤ c.max_cache_size + 1 ∧
     (fetch c symbols ct st upstream).2.max_cache_size = c.max_cache_size) ∧
    (c.max_cache_size < (aliveEntries c st).length →
      (cleanup_cache c st).cache.length = c.max_cache_size ∧
      ∀ kv ∈ aliveEntries c st, kv ∉ (cleanup_cache c st).cache →
        ∀ kv' ∈ (cleanup_cache c st).cache, kv.2.timestamp ≤ kv'.2.timestamp) := by
  constructor
  · by_cases hs : symbols = []
    · rw [hs]
      exact ⟨hnd, hlen, rfl⟩
    · have hc1nd := cleanup_keys_nodup c st hnd
      have hc1len := cleanup_length_le c st hnd
      have hmax := cleanup_max_cache_size c st
      unfold fetch
      rw [if_neg hs]
      cases hl : lookupKV (cleanup_cache c st).cache (generate_cache_key symbols) with
      | some entry =>
        simp only [hl]
        by_cases hv : is_cache_valid (cleanup_cache c st) entry ct
        · rw [if_pos hv]
          refine ⟨hc1nd, ?_, hmax⟩
          dsimp only
          omega
        · rw [if_neg hv]
          have h2 := fetchMiss_facts (cleanup_cache c st) (generate_cache_key symbols) ct
            upstream hc1nd
          have h3 := h2.2.1
          exact ⟨h2.1, by omega, h2.2.2.trans hmax⟩
      | none =>
        simp only [hl]
        have h2 := fetchMiss_facts (cleanup_cache c st) (generate_cache_key symbols) ct
          upstream hc1nd
        have h3 := h2.2.1
        exact ⟨h2.1, by omega, h2.2.2.trans hmax⟩
  · intro hover
    have h1 := evictOldest_exact (aliveEntries c st) c.max_cache_size
      (keys_nodup_filter _ _ hnd) hover
    have hcc : (cleanup_cache c st).cache = evictOldest (aliveEntries c st) c.max_cache_size := by
      unfold cleanup_cache
      rw [if_pos hover]
    constructor
    · rw [hcc]
      exact h1.1
    · intro kv hkv hnot kv' hkv'
      rw [hcc] at hnot hkv'
      exact h1.2 kv hkv hnot kv' hkv'

theorem c7_witness :
    (fetch smallCache ["A"] 0 0 (some [qBTC])).2.cache.length ≤
      smallCache.max_cache_size + 1 :=
  ((c7_amended smallCache ["A"] 0 0 (some [qBTC]) (by decide) (by decide)).1).2.1

/-! Helper lemmas for the incremental add path. -/

theorem findIdx?_isSome_of_mem {α : Type} (p : α → Bool) :
    ∀ (l : List α) (i : Nat) (x : α), x ∈ l → p x = true →
      ∃ j, List.findIdx? p l i = some j
  | [], _, x, hx, _ => absurd hx (List.not_mem_nil x)
  | a :: l, i, x, hx, hpx => by
    rw [List.findIdx?_cons]
    by_cases hpa : p a = true
    · exact ⟨i, by rw [if_pos hpa]⟩
    · rw [if_neg hpa]
      rcases List.mem_cons.mp hx with rfl | hx2
      · exact absurd hpx hpa
      · exact findIdx?_isSome_of_mem p l (i + 1) x hx2 hpx

theorem filter_ne_fresh (chans : List VoiceChannel) (nid : Nat) (name : String)
    (hfresh : ∀ c ∈ chans, c.id ≠ nid) :
    (chans ++ [(⟨nid, name⟩ : VoiceChannel)]).filter (fun c => c.id != nid) = chans := by
  rw [List.filter_append]
  have h1 : chans.filter (fun c => c.id != nid) = chans :=
    List.filter_eq_self.mpr (fun c hc => by simpa using hfresh c hc)
  have h2 : ([(⟨nid, name⟩ : VoiceChannel)]).filter (fun c => c.id != nid) = [] := by
    simp
  rw [h1, h2, List.append_nil]

/-- The operation list of the add path, characterized by the found rank:
one create plus one move (both targeting the fresh id) when the rank is 0 or
below the count of pre-existing channels, and just the create otherwise. -/
theorem add_voice_ticker_ops (styles : Styles) (quotes : List CryptoQuote)
    (ticker : String) (chans : List VoiceChannel) (nid : Nat) (r : Nat) (q : CryptoQuote)
    (hq : ¬ quotes = [])
    (hfind : findQuoteIdx (sortQuotesByMarketCap quotes) ticker = some (r, q))
    (hfresh : ∀ c ∈ chans, c.id ≠ nid) :
    ((r = 0 ∨ r < chans.length) →
      ∃ p, (add_voice_ticker styles quotes ticker chans nid).2 =
        [ChannelOp.create nid (create_channel_name styles q) none, ChannelOp.move nid p]) ∧
    (¬ (r = 0 ∨ r < chans.length) →
      (add_voice_ticker styles quotes ticker chans nid).2 =
        [ChannelOp.create nid (create_channel_name styles q) none]) := by
  have hex := filter_ne_fresh chans nid (create_channel_name styles q) hfresh
  simp only [add_voice_ticker, if_neg hq, hfind]
  by_cases h0 : r = 0
  · rw [if_pos h0]
    constructor
    · intro _
      exact ⟨0, rfl⟩
    · intro hc
      exact absurd (Or.inl h0) hc
  · rw [if_neg h0, hex]
    by_cases hlt : r < chans.length
    · rw [if_pos hlt]
      have hr1 : r - 1 < chans.length := by omega
      rw [List.get?_eq_get hr1]
      have hmem : chans.get ⟨r - 1, hr1⟩ ∈
          chans ++ [(⟨nid, create_channel_name styles q⟩ : VoiceChannel)] :=
        List.mem_append_left _ (chans.get_mem _ _)
      have hsome := findIdx?_isSome_of_mem
        (fun c => c.id = (chans.get ⟨r - 1, hr1⟩).id)
        (chans ++ [(⟨nid, create_channel_name styles q⟩ : VoiceChannel)]) 0
        (chans.get ⟨r - 1, hr1⟩) hmem (by simp)
      obtain ⟨j, hj⟩ := hsome
      have hpos : channelPosition
          (chans ++ [(⟨nid, create_channel_name styles q⟩ : VoiceChannel)])
          (chans.get ⟨r - 1, hr1⟩).id = some j := hj
      dsimp only
      rw [hpos]
      constructor
      · intro _
        exact ⟨j + 1, rfl⟩
      · intro hc
        exact absurd (Or.inr hlt) hc
    · rw [if_neg hlt]
      constructor
      · intro hc
        rcases hc with hc | hc
        · exact absurd hc h0
        · exact absurd hc hlt
      · intro _
        rfl

/-- C9 counterexample: adding the sole tracked ticker SOL to an empty
container computes rank 0, which IS the last rank, yet the add path still
issues a reposition (to position 0) for the new channel — contradicting the
claim that a reposition happens only when the computed rank is not last. -/
theorem c9_counterexample :
    (add_voice_ticker testStyles [qSOL] "SOL" [] 10).2 =
      [ChannelOp.create 10 "SOL U $150.00" none, ChannelOp.move 10 0] := by decide

/-- C9 (amended): the add path issues at most one create and at most one
reposition, both targeting only the newly created resource (so every
pre-existing resource receives no rename, reposition, or delete from this
path), and nothing at all when the quote list is empty or lacks the ticker;
when the ticker is found at rank `r`, the reposition is issued if and only if
`r = 0` or `r` is below the number of pre-existing channels in the container —
not "only when the rank is not last". -/
theorem c9_amended (styles : Styles) (quotes : List CryptoQuote) (ticker : String)
    (chans : List VoiceChannel) (nid : Nat) (hfresh : ∀ c ∈ chans, c.id ≠ nid) :
    ((add_voice_ticker styles quotes ticker chans nid).2 = [] ∨
     (∃ name, (add_voice_ticker styles quotes ticker chans nid).2 =
        [ChannelOp.create nid name none]) ∨
     (∃ name p, (add_voice_ticker styles quotes ticker chans nid).2 =
        [ChannelOp.create nid name none, ChannelOp.move nid p])) ∧
    ∀ r q, findQuoteIdx (sortQuotesByMarketCap quotes) ticker = some (r, q) →
      ((∃ name p, (add_voice_ticker styles quotes ticker chans nid).2 =
          [ChannelOp.create nid name none, ChannelOp.move nid p]) ↔
        (r = 0 ∨ r < chans.length)) := by
  by_cases hq : quotes = []
  · constructor
    · left
      simp [add_voice_ticker, hq]
    · intro r q hfind
      rw [hq] at hfind
      simp [sortQuotesByMarketCap, findQuoteIdx] at hfind
  · cases hfind : findQuoteIdx (sortQuotesByMarketCap quotes) ticker with
    | none =>
      constructor
      · left
        simp [add_voice_ticker, if_neg hq, hfind]
      · intro r q h
        exact absurd h (by simp)
    | some tq =>
      obtain ⟨r, q⟩ := tq
      have hops := add_voice_ticker_ops styles quotes ticker chans nid r q hq hfind hfresh
      constructor
      · by_cases hc : r = 0 ∨ r < chans.length
        · obtain ⟨p, hp⟩ := hops.1 hc
          exact Or.inr (Or.inr ⟨_, p, hp⟩)
        · exact Or.inr (Or.inl ⟨_, hops.2 hc⟩)
      · intro r' q' hfind'
        have hr : r = r' := by
          injection hfind' with h1
          exact congrArg Prod.fst h1
        subst hr
        constructor
        · rintro ⟨name, p, hp⟩
          by_contra hc
          rw [hops.2 hc] at hp
          simp at hp
        · intro hc
          obtain ⟨p, hp⟩ := hops.1 hc
          exact ⟨_, p, hp⟩

theorem c9_witness :
    (∃ name p, (add_voice_ticker testStyles [qSOL] "SOL" [] 10).2 =
        [ChannelOp.create 10 name none, ChannelOp.move 10 p]) ↔
      (0 = 0 ∨ 0 < ([] : List VoiceChannel).length) :=
  (c9_amended testStyles [qSOL] "SOL" [] 10 (by simp)).2 0 qSOL (by decide)

/-! Infrastructure for the reconciler claims: extracted keys of generated
names, the key→channel map, and first-match characterizations. -/

theorem string_toList_append (a b : String) : (a ++ b).toList = a.toList ++ b.toList :=
  String.data_append a b

theorem takeWhile_append_stop (p : Char → Bool) :
    ∀ (l₁ : List Char) (a : Char) (l₂ : List Char),
      (∀ c ∈ l₁, p c = true) → p a = false →
      (l₁ ++ a :: l₂).takeWhile p = l₁
  | [], a, l₂, _, ha => by simp [List.takeWhile_cons, ha]
  | c :: l₁, a, l₂, h, ha => by
    rw [List.cons_append, List.takeWhile_cons, if_pos (h c (List.mem_cons_self c l₁)),
      takeWhile_append_stop p l₁ a l₂ (fun d hd => h d (List.mem_cons_of_mem c hd)) ha]

theorem channelSymbol_append (sym rest : String) (h : ' ' ∉ sym.toList) :
    channelSymbol (sym ++ " " ++ rest) = sym := by
  unfold channelSymbol
  have htl : (sym ++ " " ++ rest).toList = sym.toList ++ ' ' :: rest.toList := by
    rw [string_toList_append, string_toList_append]
    simp
  rw [htl, takeWhile_append_stop _ _ _ _
    (fun c hc => by simp only [decide_eq_true_eq]; intro he; exact h (he ▸ hc))
    (by decide)]
  rfl

theorem channelSymbol_create_channel_name (styles : Styles) (q : CryptoQuote)
    (h : ' ' ∉ q.symbol.toList) :
    channelSymbol (create_channel_name styles q) = q.symbol := by
  have hassoc : create_channel_name styles q
      = q.symbol ++ " " ++
        ((if 0 ≤ q.percent_change_1h then styles.price_up_icon
          else styles.price_down_icon) ++ " " ++ format_price q.price_usd) := by
    simp only [create_channel_name]
    apply String.toList_inj.mp
    simp [string_toList_append, List.append_assoc]
  rw [hassoc, channelSymbol_append _ _ h]

theorem insertKV_not_mem {β : Type} (m : List (String × β)) (k : String) (v : β)
    (h : k ∉ m.map Prod.fst) : insertKV m k v = m ++ [(k, v)] := by
  unfold insertKV
  rw [if_neg]
  intro hany
  rcases List.any_eq_true.mp hany with ⟨kv, hkv, heq⟩
  simp only [decide_eq_true_eq] at heq
  exact h (List.mem_map.mpr ⟨kv, hkv, heq⟩)

theorem buildChannelMap_go :
    ∀ (chans : List VoiceChannel) (acc : List (String × Nat)),
      (acc.map Prod.fst ++ chans.map chanKey).Nodup →
      List.foldl (fun m c => insertKV m (chanKey c) c.id) acc chans
        = acc ++ chans.map (fun c => (chanKey c, c.id))
  | [], acc, _ => by simp
  | c :: rest, acc, h => by
    rw [List.foldl_cons]
    rw [List.map_cons] at h
    have hnot : chanKey c ∉ acc.map Prod.fst := by
      intro hmem
      exact (List.nodup_append.mp h).2.2 hmem (List.mem_cons_self _ _)
    rw [insertKV_not_mem _ _ _ hnot]
    have h2 : ((acc ++ [(chanKey c, c.id)]).map Prod.fst ++ rest.map chanKey).Nodup := by
      rw [List.map_append, List.append_assoc]
      simpa using h
    rw [buildChannelMap_go rest (acc ++ [(chanKey c, c.id)]) h2, List.append_assoc]
    rfl

theorem buildChannelMap_eq (chans : List VoiceChannel) (h : (keysOf chans).Nodup) :
    buildChannelMap chans = chans.map (fun c => (chanKey c, c.id)) := by
  have hgo := buildChannelMap_go chans [] (by simpa [keysOf] using h)
  simpa [buildChannelMap] using hgo

theorem lookupKV_map_pair (chans : List VoiceChannel) (k : String) :
    lookupKV (chans.map (fun c => (chanKey c, c.id))) k
      = (chans.find? (fun c => chanKey c = k)).map (fun c => c.id) := by
  unfold lookupKV
  rw [List.find?_map, Option.map_map]
  have heq : chans.find? ((fun kv => decide (kv.1 = k)) ∘ fun c => (chanKey c, c.id))
      = chans.find? (fun c => chanKey c = k) := rfl
  rw [heq]
  rfl

theorem find?_eq_of_pred_unique {α : Type} (p : α → Bool) :
    ∀ (l : List α) (x : α), x ∈ l → p x = true → (∀ y ∈ l, p y = true → y = x) →
      l.find? p = some x
  | [], x, hx, _, _ => absurd hx (List.not_mem_nil x)
  | a :: l, x, hx, hpx, huniq => by
    by_cases hpa : p a = true
    · rw [List.find?_cons_of_pos _ hpa, huniq a (List.mem_cons_self a l) hpa]
    · rw [List.find?_cons_of_neg _ hpa]
      rcases List.mem_cons.mp hx with rfl | hx2
      · exact absurd hpx hpa
      · exact find?_eq_of_pred_unique p l x hx2 hpx
          (fun y hy hpy => huniq y (List.mem_cons_of_mem a hy) hpy)

theorem findIdx?_eq_of_pred_at {α : Type} (p : α → Bool) :
    ∀ (l : List α) (j : Nat) (hj : j < l.length) (i₀ : Nat),
      p (l.get ⟨j, hj⟩) = true →
      (∀ i (hi : i < l.length), i ≠ j → p (l.get ⟨i, hi⟩) = false) →
      List.findIdx? p l i₀ = some (i₀ + j)
  | [], j, hj, _, _, _ => absurd hj (by simp)
  | a :: l, 0, hj, i₀, hpj, _ => by
    have hpa : p a = true := hpj
    rw [List.findIdx?_cons, if_pos hpa]
    simp
  | a :: l, j + 1, hj, i₀, hpj, hother => by
    have ha : p a = false := by
      have := hother 0 (Nat.succ_pos _) (by omega)
      simpa using this
    rw [List.findIdx?_cons, if_neg (by simp [ha])]
    have hrec := findIdx?_eq_of_pred_at p l j (by simpa using Nat.lt_of_succ_lt_succ hj)
      (i₀ + 1) hpj
      (fun i hi hne => by
        have := hother (i + 1) (by simpa using Nat.succ_lt_succ hi) (by omega)
        simpa using this)
    rw [hrec]
    congr 1
    omega

/-! Characterization of the operations issued by the full pass. -/

theorem fullPassLoop_processed (styles : Styles) (byKey : List (String × Nat)) :
    ∀ (sq : List CryptoQuote) (i : Nat) (chans : List VoiceChannel) (nid : Nat)
      (ops : List ChannelOp) (processed : List String),
      (fullPassLoop styles byKey sq i chans nid ops processed).2.2.2
        = processed ++ sq.map (fun q => q.symbol)
  | [], _, _, _, _, _ => by simp [fullPassLoop]
  | q :: rest, i, chans, nid, ops, processed => by
    unfold fullPassLoop
    cases lookupKV byKey q.symbol with
    | some cid =>
      dsimp only
      rw [fullPassLoop_processed styles byKey rest (i + 1) _ nid _ (processed ++ [q.symbol])]
      simp
    | none =>
      dsimp only
      rw [fullPassLoop_processed styles byKey rest (i + 1) _ (nid + 1) _ (processed ++ [q.symbol])]
      simp

/-- Shape of any operation the full-pass loop can append for the quote list
`sq`: a rename to a quote's current label or a move, targeting the channel the
key map assigns to that quote's symbol, or a create carrying a quote's label
at the quote's rank, for a symbol absent from the key map. -/
def OpOkLoop (styles : Styles) (byKey : List (String × Nat)) (sq : List CryptoQuote)
    (op : ChannelOp) : Prop :=
  (∃ q ∈ sq, ∃ cid, lookupKV byKey q.symbol = some cid ∧
    (op = ChannelOp.rename cid (create_channel_name styles q) ∨
     ∃ pos, op = ChannelOp.move cid pos)) ∨
  (∃ q ∈ sq, lookupKV byKey q.symbol = none ∧
    ∃ cid pos, op = ChannelOp.create cid (create_channel_name styles q) (some pos))

theorem opOkLoop_cons (styles : Styles) (byKey : List (String × Nat))
    (q : CryptoQuote) (rest : List CryptoQuote) (op : ChannelOp)
    (h : OpOkLoop styles byKey rest op) : OpOkLoop styles byKey (q :: rest) op := by
  rcases h with ⟨q2, hq2, hrest⟩ | ⟨q2, hq2, hrest⟩
  · exact Or.inl ⟨q2, List.mem_cons_of_mem q hq2, hrest⟩
  · exact Or.inr ⟨q2, List.mem_cons_of_mem q hq2, hrest⟩

theorem fullPassLoop_ops (styles : Styles) (byKey : List (String × Nat)) :
    ∀ (sq : List CryptoQuote) (i : Nat) (chans : List VoiceChannel) (nid : Nat)
      (ops : List ChannelOp) (processed : List String) (op : ChannelOp),
      op ∈ (fullPassLoop styles byKey sq i chans nid ops processed).2.2.1 →
      op ∈ ops ∨ OpOkLoop styles byKey sq op
  | [], _, _, _, ops, _, op => fun hop => Or.inl (by simpa [fullPassLoop] using hop)
  | q :: rest, i, chans, nid, ops, processed, op => by
    intro hop
    unfold fullPassLoop at hop
    cases hl : lookupKV byKey q.symbol with
    | none =>
      rw [hl] at hop
      dsimp only at hop
      rcases fullPassLoop_ops styles byKey rest (i + 1) _ (nid + 1) _
          (processed ++ [q.symbol]) op hop with h | h
      · rcases List.mem_append.mp h with h2 | h2
        · exact Or.inl h2
        · refine Or.inr (Or.inr ⟨q, List.mem_cons_self q rest, hl, nid, i, ?_⟩)
          simpa using h2
      · exact Or.inr (opOkLoop_cons styles byKey q rest op h)
    | some cid =>
      rw [hl] at hop
      dsimp only at hop
      have hfin : ∀ (chans2 : List VoiceChannel) (L : List ChannelOp),
          (∀ o ∈ L, o = ChannelOp.rename cid (create_channel_name styles q) ∨
            ∃ pos, o = ChannelOp.move cid pos) →
          op ∈ (fullPassLoop styles byKey rest (i + 1) chans2 nid (ops ++ L)
            (processed ++ [q.symbol])).2.2.1 →
          op ∈ ops ∨ OpOkLoop styles byKey (q :: rest) op := by
        intro chans2 L hLok hop2
        rcases fullPassLoop_ops styles byKey rest (i + 1) chans2 nid (ops ++ L)
            (processed ++ [q.symbol]) op hop2 with h | h
        · rcases List.mem_append.mp h with h2 | h2
          · exact Or.inl h2
          · exact Or.inr (Or.inl ⟨q, List.mem_cons_self q rest, cid, hl, hLok op h2⟩)
        · exact Or.inr (opOkLoop_cons styles byKey q rest op h)
      cases hf : findChannel chans cid with
      | none =>
        rw [hf] at hop
        dsimp only at hop
        cases hp : channelPosition chans cid with
        | none =>
          rw [hp] at hop
          dsimp only at hop
          exact hfin _ [] (by simp) (by simpa using hop)
        | some pos =>
          rw [hp] at hop
          dsimp only at hop
          by_cases hpi : pos ≠ i
          · rw [if_pos hpi] at hop
            exact hfin _ [ChannelOp.move cid i] (by simp) hop
          · rw [if_neg hpi] at hop
            exact hfin _ [] (by simp) (by simpa using hop)
      | some c =>
        rw [hf] at hop
        dsimp only at hop
        by_cases hn : c.name ≠ create_channel_name styles q
        · rw [if_pos hn] at hop
          dsimp only at hop
          cases hp : channelPosition (renameChannel chans cid (create_channel_name styles q)) cid with
          | none =>
            rw [hp] at hop
            dsimp only at hop
            exact hfin _ [ChannelOp.rename cid (create_channel_name styles q)] (by simp) hop
          | some pos =>
            rw [hp] at hop
            dsimp only at hop
            by_cases hpi : pos ≠ i
            · rw [if_pos hpi] at hop
              refine hfin _ [ChannelOp.rename cid (create_channel_name styles q),
                ChannelOp.move cid i] ?_ (by simpa using hop)
              intro o ho
              rcases List.mem_cons.mp ho with rfl | ho2
              · exact Or.inl rfl
              · exact Or.inr ⟨i, by simpa using ho2⟩
            · rw [if_neg hpi] at hop
              exact hfin _ [ChannelOp.rename cid (create_channel_name styles q)] (by simp) hop
        · rw [if_neg hn] at hop
          dsimp only at hop
          cases hp : channelPosition chans cid with
          | none =>
            rw [hp] at hop
            dsimp only at hop
            exact hfin _ [] (by simp) (by simpa using hop)
          | some pos =>
            rw [hp] at hop
            dsimp only at hop
            by_cases hpi : pos ≠ i
            · rw [if_pos hpi] at hop
              exact hfin _ [ChannelOp.move cid i] (by simp) hop
            · rw [if_neg hpi] at hop
              exact hfin _ [] (by simp) (by simpa using hop)

theorem deleteFold_eq (processed : List String) :
    ∀ (kvs : List (String × Nat)) (cont : List VoiceChannel) (ops : List ChannelOp),
      List.foldl (fun (st : List VoiceChannel × List ChannelOp) kv =>
          if kv.1 ∈ processed then st
          else (deleteChannel st.1 kv.2, st.2 ++ [ChannelOp.delete kv.2])) (cont, ops) kvs
        = (cont.filter (fun c =>
            ! ((kvs.filter (fun kv => decide (kv.1 ∉ processed))).map Prod.snd).contains c.id),
           ops ++ (kvs.filter (fun kv => decide (kv.1 ∉ processed))).map
             (fun kv => ChannelOp.delete kv.2))
  | [], cont, ops => by simp
  | kv :: rest, cont, ops => by
    rw [List.foldl_cons]
    by_cases hmem : kv.1 ∈ processed
    · rw [if_pos hmem, deleteFold_eq processed rest cont ops]
      have hfilter : (kv :: rest).filter (fun kv => decide (kv.1 ∉ processed))
          = rest.filter (fun kv => decide (kv.1 ∉ processed)) := by
        rw [List.filter_cons]
        simp [hmem]
      rw [hfilter]
    · rw [if_neg hmem,
        deleteFold_eq processed rest (deleteChannel cont kv.2) (ops ++ [ChannelOp.delete kv.2])]
      have hfilter : (kv :: rest).filter (fun kv => decide (kv.1 ∉ processed))
          = kv :: rest.filter (fun kv => decide (kv.1 ∉ processed)) := by
        rw [List.filter_cons]
        simp [hmem]
      rw [hfilter]
      simp only [Prod.mk.injEq]
      constructor
      · unfold deleteChannel
        rw [List.filter_filter]
        apply List.filter_congr
        intro c _
        simp only [List.map_cons, List.contains_cons, Bool.not_or, bne]
        exact Bool.and_comm _ _
      · simp

/-- Splitting the full pass's operation list into the loop's operations and
the deletion phase's operations. -/
theorem full_pass_ops_split (styles : Styles) (quotes : List CryptoQuote)
    (chans₀ : List VoiceChannel) (nid₀ : Nat) (hq : ¬ quotes = [])
    (hkeys : (keysOf chans₀).Nodup) :
    ∃ loopOps,
      (update_voice_channels_for_guild styles quotes chans₀ nid₀).2 =
        loopOps ++ (chans₀.filter (fun c =>
            decide (chanKey c ∉ (sortQuotesByMarketCap quotes).map (fun q => q.symbol)))).map
          (fun c => ChannelOp.delete c.id) ∧
      ∀ op ∈ loopOps, OpOkLoop styles (chans₀.map (fun c => (chanKey c, c.id)))
        (sortQuotesByMarketCap quotes) op := by
  unfold update_voice_channels_for_guild
  rw [if_neg hq, buildChannelMap_eq _ hkeys]
  refine ⟨(fullPassLoop styles (chans₀.map (fun c => (chanKey c, c.id)))
      (sortQuotesByMarketCap quotes) 0 chans₀ nid₀ [] []).2.2.1, ?_, ?_⟩
  · rw [deleteFold_eq]
    rw [fullPassLoop_processed]
    have hfm := (filter_comp_map (fun c => (chanKey c, c.id))
      (fun kv => decide (kv.1 ∉ [] ++ (sortQuotesByMarketCap quotes).map (fun q => q.symbol)))
      chans₀).symm
    rw [hfm, List.map_map]
    simp
  · intro op hop
    rcases fullPassLoop_ops styles (chans₀.map (fun c => (chanKey c, c.id)))
        (sortQuotesByMarketCap quotes) 0 chans₀ nid₀ [] [] op hop with h | h
    · exact absurd h (List.not_mem_nil op)
    · exact h

/-- C1 counterexample: in a full pass with quotes only for BTC, the foreign
channel `General chat` (extracted key `General`, not a tracked symbol) IS
deleted; likewise the existing channel of the tracked-but-quote-omitted
symbol ETH IS deleted — both contradicting the claim that such resources are
never touched. -/
theorem c1_counterexample :
    ChannelOp.delete 2 ∈
      (update_voice_channels_for_guild testStyles [qBTC] chansWithForeign 10).2 ∧
    ChannelOp.delete 1 ∈
      (update_voice_channels_for_guild testStyles [qBTC]
        [(⟨1, "ETH D $0.5000"⟩ : VoiceChannel)] 10).2 :=
  ⟨by decide, by decide⟩

/-- C1 (amended): in a full pass with a non-empty fetched quote list, delete
operations are issued for EVERY existing resource whose extracted key is not
among the fetched quotes' symbols — including foreign resources and tracked
symbols whose quote the upstream omitted — and only for those; such resources
are never renamed or repositioned; and create operations are issued only for
fetched quotes' symbols having no existing resource, so an omitted symbol is
never created. -/
theorem c1_amended (styles : Styles) (quotes : List CryptoQuote)
    (chans₀ : List VoiceChannel) (nid₀ : Nat)
    (hkeys : (keysOf chans₀).Nodup) (hids : (idsOf chans₀).Nodup) (hq : ¬ quotes = []) :
    (∀ c ∈ chans₀, chanKey c ∉ quotes.map (fun q => q.symbol) →
      ChannelOp.delete c.id ∈ (update_voice_channels_for_guild styles quotes chans₀ nid₀).2 ∧
      (∀ s, ChannelOp.rename c.id s ∉
        (update_voice_channels_for_guild styles quotes chans₀ nid₀).2) ∧
      (∀ p, ChannelOp.move c.id p ∉
        (update_voice_channels_for_guild styles quotes chans₀ nid₀).2)) ∧
    (∀ cid name pos, ChannelOp.create cid name pos ∈
        (update_voice_channels_for_guild styles quotes chans₀ nid₀).2 →
      ∃ q ∈ quotes, name = create_channel_name styles q ∧
        ∀ c ∈ chans₀, chanKey c ≠ q.symbol) ∧
    (∀ cid, ChannelOp.delete cid ∈
        (update_voice_channels_for_guild styles quotes chans₀ nid₀).2 →
      ∃ c ∈ chans₀, c.id = cid ∧ chanKey c ∉ quotes.map (fun q => q.symbol)) := by
  obtain ⟨loopOps, hsplit, hok⟩ := full_pass_ops_split styles quotes chans₀ nid₀ hq hkeys
  have hperm : List.Perm (sortQuotesByMarketCap quotes) quotes :=
    List.perm_insertionSort _ quotes
  have hsymmem : ∀ s, s ∈ (sortQuotesByMarketCap quotes).map (fun q => q.symbol) ↔
      s ∈ quotes.map (fun q => q.symbol) := fun s => (hperm.map _).mem_iff
  have htracked : ∀ (q : CryptoQuote) (cid : Nat),
      q ∈ sortQuotesByMarketCap quotes →
      lookupKV (chans₀.map (fun c => (chanKey c, c.id))) q.symbol = some cid →
      ∃ d ∈ chans₀, d.id = cid ∧ chanKey d = q.symbol := by
    intro q cid _ hl
    rw [lookupKV_map_pair] at hl
    cases hfind : chans₀.find? (fun c => chanKey c = q.symbol) with
    | none => rw [hfind] at hl; exact absurd hl (by simp)
    | some d =>
      rw [hfind] at hl
      refine ⟨d, List.mem_of_find?_eq_some hfind, ?_, ?_⟩
      · simpa using hl
      · have := List.find?_some hfind
        simpa using this
  refine ⟨?_, ?_, ?_⟩
  · intro c hc hnot
    refine ⟨?_, ?_, ?_⟩
    · rw [hsplit]
      apply List.mem_append_right
      exact List.mem_map.mpr ⟨c, List.mem_filter.mpr ⟨hc, by
        simp only [decide_eq_true_eq]
        exact fun hmem => hnot ((hsymmem _).mp hmem)⟩, rfl⟩
    · intro s hmem
      rw [hsplit] at hmem
      rcases List.mem_append.mp hmem with h | h
      · rcases hok _ h with ⟨q, hqmem, cid, hl, hshape⟩ | ⟨q, hqmem, _, _, _, hshape⟩
        · rcases hshape with heq | ⟨pos, heq⟩
          · have hcid : cid = c.id := ((ChannelOp.rename.injEq _ _ _ _).mp heq).1.symm
            obtain ⟨d, hd, hdid, hdkey⟩ := htracked q cid hqmem hl
            have hdc : d = c := List.inj_on_of_nodup_map hids hd hc (by rw [hdid, hcid])
            apply hnot
            rw [hdc] at hdkey
            rw [hdkey]
            exact List.mem_map.mpr ⟨q, hperm.mem_iff.mp hqmem, rfl⟩
          · exact absurd heq (by simp)
        · exact absurd hshape (by simp)
      · rcases List.mem_map.mp h with ⟨d, _, heq⟩
        exact absurd heq (by simp)
    · intro p hmem
      rw [hsplit] at hmem
      rcases List.mem_append.mp hmem with h | h
      · rcases hok _ h with ⟨q, hqmem, cid, hl, hshape⟩ | ⟨q, hqmem, _, _, _, hshape⟩
        · rcases hshape with heq | ⟨pos, heq⟩
          · exact absurd heq (by simp)
          · have hcid : cid = c.id := ((ChannelOp.move.injEq _ _ _ _).mp heq).1.symm
            obtain ⟨d, hd, hdid, hdkey⟩ := htracked q cid hqmem hl
            have hdc : d = c := List.inj_on_of_nodup_map hids hd hc (by rw [hdid, hcid])
            apply hnot
            rw [hdc] at hdkey
            rw [hdkey]
            exact List.mem_map.mpr ⟨q, hperm.mem_iff.mp hqmem, rfl⟩
        · exact absurd hshape (by simp)
      · rcases List.mem_map.mp h with ⟨d, _, heq⟩
        exact absurd heq (by simp)
  · intro cid name pos hmem
    rw [hsplit] at hmem
    rcases List.mem_append.mp hmem with h | h
    · rcases hok _ h with ⟨q, hqmem, cid2, hl, hshape⟩ | ⟨q, hqmem, hlnone, cid2, pos2, hshape⟩
      · rcases hshape with heq | ⟨pos2, heq⟩ <;> exact absurd heq (by simp)
      · have hname : name = create_channel_name styles q := by
          have := (ChannelOp.create.injEq _ _ _ _ _ _).mp hshape
          exact this.2.1
        refine ⟨q, hperm.mem_iff.mp hqmem, hname, ?_⟩
        rw [lookupKV_map_pair] at hlnone
        have hfind : chans₀.find? (fun c => chanKey c = q.symbol) = none := by
          cases hf : chans₀.find? (fun c => chanKey c = q.symbol) with
          | none => rfl
          | some d => rw [hf] at hlnone; exact absurd hlnone (by simp)
        intro c hc
        have := List.find?_eq_none.mp hfind c hc
        simpa using this
    · rcases List.mem_map.mp h with ⟨d, _, heq⟩
      exact absurd heq (by simp)
  · intro cid hmem
    rw [hsplit] at hmem
    rcases List.mem_append.mp hmem with h | h
    · rcases hok _ h with ⟨q, hqmem, cid2, hl, hshape⟩ | ⟨q, hqmem, _, cid2, pos2, hshape⟩
      · rcases hshape with heq | ⟨pos2, heq⟩ <;> exact absurd heq (by simp)
      · exact absurd hshape (by simp)
    · rcases List.mem_map.mp h with ⟨d, hd, heq⟩
      have hdid : d.id = cid := by
        have := (ChannelOp.delete.injEq _ _).mp heq
        exact this
      obtain ⟨hdmem, hdnot⟩ := List.mem_filter.mp hd
      refine ⟨d, hdmem, hdid, ?_⟩
      intro hmem2
      have : chanKey d ∈ (sortQuotesByMarketCap quotes).map (fun q => q.symbol) :=
        (hsymmem _).mpr hmem2
      simp only [decide_eq_true_eq] at hdnot
      exact hdnot this

theorem c1_witness :
    ChannelOp.delete 2 ∈
      (update_voice_channels_for_guild testStyles [qBTC] chansWithForeign 10).2 ∧
    ∀ s, ChannelOp.rename 2 s ∉
      (update_voice_channels_for_guild testStyles [qBTC] chansWithForeign 10).2 := by
  have h := (c1_amended testStyles [qBTC] chansWithForeign 10 (by decide) (by decide)
    (by decide)).1 ⟨2, "General chat"⟩ (by decide) (by decide)
  exact ⟨h.1, h.2.1⟩

/-! Container-surgery lemmas for the full-pass shape proof. -/

theorem findIdx?_append_false {α : Type} (p : α → Bool) :
    ∀ (l₁ l₂ : List α) (i₀ : Nat), (∀ y ∈ l₁, p y = false) →
      List.findIdx? p (l₁ ++ l₂) i₀ = List.findIdx? p l₂ (i₀ + l₁.length)
  | [], l₂, i₀, _ => by simp
  | a :: l₁, l₂, i₀, h => by
    rw [List.cons_append, List.findIdx?_cons,
      if_neg (by simp [h a (List.mem_cons_self a l₁)]),
      findIdx?_append_false p l₁ l₂ (i₀ + 1)
        (fun y hy => h y (List.mem_cons_of_mem a hy))]
    congr 1
    simp
    omega

theorem findIdx?_cons_true {α : Type} (p : α → Bool) (a : α) (l : List α) (i₀ : Nat)
    (h : p a = true) : List.findIdx? p (a :: l) i₀ = some i₀ := by
  rw [List.findIdx?_cons, if_pos h]

theorem ids_ne_of_nodup_split (P S₁ S₂ : List VoiceChannel) (c₀ : VoiceChannel)
    (hids : (idsOf (P ++ (S₁ ++ c₀ :: S₂))).Nodup) :
    (∀ y ∈ P, y.id ≠ c₀.id) ∧ (∀ y ∈ S₁, y.id ≠ c₀.id) ∧ (∀ y ∈ S₂, y.id ≠ c₀.id) := by
  have h1 : (idsOf (P ++ (S₁ ++ c₀ :: S₂)))
      = idsOf P ++ (idsOf S₁ ++ c₀.id :: idsOf S₂) := by
    simp [idsOf]
  rw [h1] at hids
  rw [List.nodup_append] at hids
  obtain ⟨-, hS, hdisj⟩ := hids
  rw [List.nodup_append] at hS
  obtain ⟨-, hS2, hdisj2⟩ := hS
  refine ⟨?_, ?_, ?_⟩
  · intro y hy he
    exact hdisj (List.mem_map.mpr ⟨y, hy, rfl⟩)
      (List.mem_append_right _ (he ▸ List.mem_cons_self _ _))
  · intro y hy he
    exact hdisj2 (List.mem_map.mpr ⟨y, hy, rfl⟩) (he ▸ List.mem_cons_self _ _)
  · intro y hy he
    have := (List.nodup_cons.mp hS2).1
    exact this (he ▸ List.mem_map.mpr ⟨y, hy, rfl⟩)

theorem renameChannel_split (P S₁ S₂ : List VoiceChannel) (c₀ : VoiceChannel)
    (newName : String) (hids : (idsOf (P ++ (S₁ ++ c₀ :: S₂))).Nodup) :
    renameChannel (P ++ (S₁ ++ c₀ :: S₂)) c₀.id newName
      = P ++ (S₁ ++ (⟨c₀.id, newName⟩ : VoiceChannel) :: S₂) := by
  obtain ⟨hP, hS1, hS2⟩ := ids_ne_of_nodup_split P S₁ S₂ c₀ hids
  unfold renameChannel
  rw [List.map_append, List.map_append, List.map_cons]
  have hmapP : P.map (fun c => if c.id = c₀.id then { c with name := newName } else c) = P := by
    have := List.map_congr_left (l := P)
      (f := fun c => if c.id = c₀.id then { c with name := newName } else c) (g := id)
      (fun c hc => by simp [hP c hc])
    simpa using this
  have hmapS1 : S₁.map (fun c => if c.id = c₀.id then { c with name := newName } else c) = S₁ := by
    have := List.map_congr_left (l := S₁)
      (f := fun c => if c.id = c₀.id then { c with name := newName } else c) (g := id)
      (fun c hc => by simp [hS1 c hc])
    simpa using this
  have hmapS2 : S₂.map (fun c => if c.id = c₀.id then { c with name := newName } else c) = S₂ := by
    have := List.map_congr_left (l := S₂)
      (f := fun c => if c.id = c₀.id then { c with name := newName } else c) (g := id)
      (fun c hc => by simp [hS2 c hc])
    simpa using this
  rw [hmapP, hmapS1, hmapS2, if_pos rfl]

theorem insertChannelAt_boundary (P S : List VoiceChannel) (c : VoiceChannel) :
    insertChannelAt (P ++ S) P.length c = P ++ c :: S := by
  unfold insertChannelAt
  rw [List.take_left, List.drop_left]
  simp

theorem find?_append_false {α : Type} (p : α → Bool) :
    ∀ (l₁ l₂ : List α), (∀ y ∈ l₁, p y = false) → (l₁ ++ l₂).find? p = l₂.find? p
  | [], _, _ => by simp
  | a :: l₁, l₂, h => by
    rw [List.cons_append, List.find?_cons_of_neg _ (by simp [h a (List.mem_cons_self a l₁)]),
      find?_append_false p l₁ l₂ (fun y hy => h y (List.mem_cons_of_mem a hy))]

theorem findChannel_split (P S₁ S₂ : List VoiceChannel) (c₀ : VoiceChannel)
    (hids : (idsOf (P ++ (S₁ ++ c₀ :: S₂))).Nodup) :
    findChannel (P ++ (S₁ ++ c₀ :: S₂)) c₀.id = some c₀ := by
  obtain ⟨hP, hS1, _⟩ := ids_ne_of_nodup_split P S₁ S₂ c₀ hids
  unfold findChannel
  rw [find?_append_false _ P _ (fun y hy => by simp [hP y hy]),
    find?_append_false _ S₁ _ (fun y hy => by simp [hS1 y hy]),
    List.find?_cons_of_pos _ (by simp)]

theorem channelPosition_split (P S₁ S₂ : List VoiceChannel) (c₀ : VoiceChannel)
    (hids : (idsOf (P ++ (S₁ ++ c₀ :: S₂))).Nodup) :
    channelPosition (P ++ (S₁ ++ c₀ :: S₂)) c₀.id = some (P.length + S₁.length) := by
  obtain ⟨hP, hS1, _⟩ := ids_ne_of_nodup_split P S₁ S₂ c₀ hids
  unfold channelPosition
  rw [findIdx?_append_false _ P _ 0 (fun y hy => by simp [hP y hy]), Nat.zero_add,
    findIdx?_append_false _ S₁ _ P.length (fun y hy => by simp [hS1 y hy]),
    findIdx?_cons_true _ _ _ _ (by simp)]

theorem moveChannel_to_boundary (P S₁ S₂ : List VoiceChannel) (c₀ : VoiceChannel)
    (hids : (idsOf (P ++ (S₁ ++ c₀ :: S₂))).Nodup) :
    moveChannel (P ++ (S₁ ++ c₀ :: S₂)) c₀.id P.length = P ++ c₀ :: (S₁ ++ S₂) := by
  obtain ⟨hP, hS1, hS2⟩ := ids_ne_of_nodup_split P S₁ S₂ c₀ hids
  unfold moveChannel
  rw [findChannel_split P S₁ S₂ c₀ hids]
  have hfP : P.filter (fun d => d.id != c₀.id) = P :=
    List.filter_eq_self.mpr (fun d hd => by simpa using hP d hd)
  have hfS1 : S₁.filter (fun d => d.id != c₀.id) = S₁ :=
    List.filter_eq_self.mpr (fun d hd => by simpa using hS1 d hd)
  have hfS2 : S₂.filter (fun d => d.id != c₀.id) = S₂ :=
    List.filter_eq_self.mpr (fun d hd => by simpa using hS2 d hd)
  rw [List.filter_append, List.filter_append, List.filter_cons]
  simp only [bne_self_eq_false, Bool.false_eq_true, if_neg]
  rw [hfP, hfS1, hfS2]
  have := insertChannelAt_boundary P (S₁ ++ S₂) c₀
  simpa using this

theorem filter_processed_append (chans₀ : List VoiceChannel) (processed : List String)
    (s : String) :
    chans₀.filter (fun c => decide (chanKey c ∉ processed ++ [s]))
      = (chans₀.filter (fun c => decide (chanKey c ∉ processed))).filter
          (fun c => decide (chanKey c ≠ s)) := by
  rw [List.filter_filter]
  apply List.filter_congr
  intro c _
  by_cases h1 : chanKey c ∈ processed <;> by_cases h2 : chanKey c = s <;> simp [h1, h2]

theorem filter_key_ne_split (S₁ S₂ : List VoiceChannel) (c₀ : VoiceChannel)
    (hkeys : (keysOf (S₁ ++ c₀ :: S₂)).Nodup) :
    (S₁ ++ c₀ :: S₂).filter (fun c => decide (chanKey c ≠ chanKey c₀)) = S₁ ++ S₂ := by
  have h1 : keysOf (S₁ ++ c₀ :: S₂) = keysOf S₁ ++ chanKey c₀ :: keysOf S₂ := by
    simp [keysOf]
  rw [h1, List.nodup_append] at hkeys
  obtain ⟨-, hc, hdisj⟩ := hkeys
  rw [List.filter_append, List.filter_cons]
  have hS1 : S₁.filter (fun c => decide (chanKey c ≠ chanKey c₀)) = S₁ :=
    List.filter_eq_self.mpr (fun d hd => by
      simp only [decide_eq_true_eq]
      intro he
      exact hdisj (he ▸ List.mem_map.mpr ⟨d, hd, rfl⟩) (List.mem_cons_self _ _))
  have hS2 : S₂.filter (fun c => decide (chanKey c ≠ chanKey c₀)) = S₂ :=
    List.filter_eq_self.mpr (fun d hd => by
      simp only [decide_eq_true_eq]
      intro he
      exact (List.nodup_cons.mp hc).1 (he ▸ List.mem_map.mpr ⟨d, hd, rfl⟩))
  simp only [decide_not] at hS1 hS2
  simp [hS1, hS2]

theorem lookup_pair_some_elim (chans₀ : List VoiceChannel) (s : String) (cid : Nat)
    (h : lookupKV (chans₀.map (fun c => (chanKey c, c.id))) s = some cid) :
    ∃ d ∈ chans₀, d.id = cid ∧ chanKey d = s := by
  rw [lookupKV_map_pair] at h
  cases hfind : chans₀.find? (fun c => chanKey c = s) with
  | none => rw [hfind] at h; exact absurd h (by simp)
  | some d =>
    rw [hfind] at h
    refine ⟨d, List.mem_of_find?_eq_some hfind, by simpa using h, ?_⟩
    have := List.find?_some hfind
    simpa using this

theorem lookup_pair_none_elim (chans₀ : List VoiceChannel) (s : String)
    (h : lookupKV (chans₀.map (fun c => (chanKey c, c.id))) s = none) :
    ∀ c ∈ chans₀, chanKey c ≠ s := by
  rw [lookupKV_map_pair] at h
  intro c hc
  cases hfind : chans₀.find? (fun c => chanKey c = s) with
  | none =>
    have := List.find?_eq_none.mp hfind c hc
    simpa using this
  | some d => rw [hfind] at h; exact absurd h (by simp)

theorem keysOf_filter_nodup (chans₀ : List VoiceChannel) (p : VoiceChannel → Bool)
    (h : (keysOf chans₀).Nodup) : (keysOf (chans₀.filter p)).Nodup :=
  ((chans₀.filter_sublist).map chanKey).nodup h

/-- The full-pass loop, started on a container consisting of an
already-processed prefix `P` followed by the original channels whose key is
still unprocessed, produces the prefix `P` followed by one channel per quote
(in rank order, carrying the rendered labels) followed by the original
channels whose key matches no processed or listed symbol. -/
theorem fullPassLoop_shape (styles : Styles) (chans₀ : List VoiceChannel) (nid₀ : Nat)
    (hkeys₀ : (keysOf chans₀).Nodup) (hids₀ : (idsOf chans₀).Nodup)
    (hfresh₀ : ∀ c ∈ chans₀, c.id < nid₀) :
    ∀ (sq : List CryptoQuote) (P : List VoiceChannel) (nidc : Nat)
      (ops : List ChannelOp) (processed : List String),
      nid₀ ≤ nidc →
      (sq.map (fun q => q.symbol)).Nodup →
      (∀ q ∈ sq, q.symbol ∉ processed) →
      (∀ p ∈ P, p.id < nidc) →
      (idsOf (P ++ chans₀.filter (fun c => decide (chanKey c ∉ processed)))).Nodup →
      ∃ (P' : List VoiceChannel) (nid' : Nat) (ops' : List ChannelOp),
        fullPassLoop styles (chans₀.map (fun c => (chanKey c, c.id))) sq P.length
            (P ++ chans₀.filter (fun c => decide (chanKey c ∉ processed))) nidc ops processed
          = (P ++ P' ++ chans₀.filter (fun c =>
              decide (chanKey c ∉ processed ++ sq.map (fun q => q.symbol))),
             nid', ops', processed ++ sq.map (fun q => q.symbol)) ∧
        P'.map (fun c => c.name) = sq.map (create_channel_name styles) ∧
        nidc ≤ nid' ∧
        (∀ p ∈ P', p.id < nid') ∧
        (∀ p ∈ P', (∃ c ∈ chans₀, c.id = p.id ∧ chanKey c ∈ sq.map (fun q => q.symbol)) ∨
          nidc ≤ p.id) ∧
        (idsOf ((P ++ P') ++ chans₀.filter (fun c =>
            decide (chanKey c ∉ processed ++ sq.map (fun q => q.symbol))))).Nodup
  | [], P, nidc, ops, processed, hnid, _, _, hPlt, hnodup => by
    refine ⟨[], nidc, ops, ?_, rfl, le_refl _, by simp, by simp, ?_⟩
    · simp [fullPassLoop]
    · simpa using hnodup
  | q :: rest, P, nidc, ops, processed, hnid, hsyms, hproc, hPlt, hnodup => by
    have hsymsrest : (rest.map (fun q => q.symbol)).Nodup := (List.nodup_cons.mp hsyms).2
    have hnotinrest : q.symbol ∉ rest.map (fun q => q.symbol) := (List.nodup_cons.mp hsyms).1
    have happrocf : ∀ (f : List VoiceChannel),
        (processed ++ [q.symbol]) ++ rest.map (fun q => q.symbol)
          = processed ++ (q :: rest).map (fun q => q.symbol) := fun _ => by simp
    unfold fullPassLoop
    cases hl : lookupKV (chans₀.map (fun c => (chanKey c, c.id))) q.symbol with
    | some cid =>
      obtain ⟨c₀, hc₀mem, hc₀id, hc₀key⟩ := lookup_pair_some_elim chans₀ q.symbol cid hl
      subst hc₀id
      have hqproc : q.symbol ∉ processed := hproc q (List.mem_cons_self q rest)
      have hc₀S : c₀ ∈ chans₀.filter (fun c => decide (chanKey c ∉ processed)) :=
        List.mem_filter.mpr ⟨hc₀mem, by simp [hc₀key, hqproc]⟩
      obtain ⟨S₁, S₂, hsplit⟩ := List.append_of_mem hc₀S
      have hSkeys : (keysOf (S₁ ++ c₀ :: S₂)).Nodup := by
        rw [← hsplit]
        exact keysOf_filter_nodup chans₀ _ hkeys₀
      have hS' : chans₀.filter (fun c => decide (chanKey c ∉ processed ++ [q.symbol]))
          = S₁ ++ S₂ := by
        rw [filter_processed_append, hsplit, ← hc₀key, filter_key_ne_split S₁ S₂ c₀ hSkeys]
      have hnodup2 : (idsOf (P ++ (S₁ ++ c₀ :: S₂))).Nodup := by
        rw [← hsplit]
        exact hnodup
      have hc₀fresh : c₀.id < nidc := lt_of_lt_of_le (hfresh₀ c₀ hc₀mem) hnid
      have hSsub : ∀ d ∈ S₁ ++ c₀ :: S₂, d ∈ chans₀ := by
        intro d hd
        rw [← hsplit] at hd
        exact (List.mem_filter.mp hd).1
      -- the channel after the (possible) rename
      have hloopstep : ∀ (cont2 : List VoiceChannel) (ops2 : List ChannelOp),
          cont2 = P ++ (⟨c₀.id, create_channel_name styles q⟩ : VoiceChannel) :: (S₁ ++ S₂) →
          ∃ (P' : List VoiceChannel) (nid' : Nat) (ops' : List ChannelOp),
            fullPassLoop styles (chans₀.map (fun c => (chanKey c, c.id))) rest
                (P.length + 1) cont2 nidc ops2 (processed ++ [q.symbol])
              = (P ++ P' ++ chans₀.filter (fun c =>
                  decide (chanKey c ∉ processed ++ (q :: rest).map (fun q => q.symbol))),
                 nid', ops', processed ++ (q :: rest).map (fun q => q.symbol)) ∧
            P'.map (fun c => c.name) = (q :: rest).map (create_channel_name styles) ∧
            nidc ≤ nid' ∧
            (∀ p ∈ P', p.id < nid') ∧
            (∀ p ∈ P', (∃ c ∈ chans₀, c.id = p.id ∧
                chanKey c ∈ (q :: rest).map (fun q => q.symbol)) ∨ nidc ≤ p.id) ∧
            (idsOf ((P ++ P') ++ chans₀.filter (fun c =>
                decide (chanKey c ∉ processed ++ (q :: rest).map (fun q => q.symbol))))).Nodup := by
        intro cont2 ops2 hcont2
        set c₁ : VoiceChannel := ⟨c₀.id, create_channel_name styles q⟩ with hc₁def
        have hcont2' : cont2 = (P ++ [c₁]) ++ chans₀.filter
            (fun c => decide (chanKey c ∉ processed ++ [q.symbol])) := by
          rw [hcont2, hS']
          simp
        have hlen1 : P.length + 1 = (P ++ [c₁]).length := by simp
        have hprocrest : ∀ q2 ∈ rest, q2.symbol ∉ processed ++ [q.symbol] := by
          intro q2 hq2
          simp only [List.mem_append, List.mem_singleton]
          rintro (h | h)
          · exact hproc q2 (List.mem_cons_of_mem q hq2) h
          · exact hnotinrest (h ▸ List.mem_map.mpr ⟨q2, hq2, rfl⟩)
        have hPlt1 : ∀ p ∈ P ++ [c₁], p.id < nidc := by
          intro p hp
          rcases List.mem_append.mp hp with h | h
          · exact hPlt p h
          · rw [List.mem_singleton.mp h]
            exact hc₀fresh
        have hnodup1 : (idsOf ((P ++ [c₁]) ++ chans₀.filter
            (fun c => decide (chanKey c ∉ processed ++ [q.symbol])))).Nodup := by
          rw [hS']
          have hperm : List.Perm (idsOf ((P ++ [c₁]) ++ (S₁ ++ S₂)))
              (idsOf (P ++ (S₁ ++ c₀ :: S₂))) := by
            have h1 : idsOf ((P ++ [c₁]) ++ (S₁ ++ S₂))
                = idsOf P ++ (c₀.id :: (idsOf S₁ ++ idsOf S₂)) := by
              simp [idsOf, hc₁def]
            have h2 : idsOf (P ++ (S₁ ++ c₀ :: S₂))
                = idsOf P ++ (idsOf S₁ ++ c₀.id :: idsOf S₂) := by
              simp [idsOf]
            rw [h1, h2]
            exact List.Perm.append_left _ List.perm_middle.symm
          exact hperm.nodup_iff.mpr hnodup2
        obtain ⟨P'', nid', ops'', hloop, hnames, hnidle, hlt, horigin, hnodupout⟩ :=
          fullPassLoop_shape styles chans₀ nid₀ hkeys₀ hids₀ hfresh₀ rest (P ++ [c₁]) nidc
            ops2 (processed ++ [q.symbol]) hnid hsymsrest hprocrest hPlt1 hnodup1
        rw [hlen1, hcont2']
        refine ⟨c₁ :: P'', nid', ops'', ?_, ?_, hnidle, ?_, ?_, ?_⟩
        · rw [hloop]
          have he1 : (processed ++ [q.symbol]) ++ rest.map (fun q => q.symbol)
              = processed ++ (q :: rest).map (fun q => q.symbol) := by simp
          have he2 : (P ++ [c₁]) ++ P'' = P ++ c₁ :: P'' := by simp
          rw [he1, he2]
        · simp [hnames]
        · intro p hp
          rcases List.mem_cons.mp hp with rfl | hp2
          · exact lt_of_lt_of_le hc₀fresh hnidle
          · exact hlt p hp2
        · intro p hp
          rcases List.mem_cons.mp hp with rfl | hp2
          · exact Or.inl ⟨c₀, hc₀mem, rfl, by
              rw [hc₀key]
              exact List.mem_cons_self _ _⟩
          · rcases horigin p hp2 with ⟨c, hc, hcid, hckey⟩ | hge
            · exact Or.inl ⟨c, hc, hcid, List.mem_cons_of_mem _ hckey⟩
            · exact Or.inr hge
        · have he1 : (processed ++ [q.symbol]) ++ rest.map (fun q => q.symbol)
              = processed ++ (q :: rest).map (fun q => q.symbol) := by simp
          rw [he1] at hnodupout
          have he2 : (P ++ [c₁]) ++ P'' = P ++ c₁ :: P'' := by simp
          rw [he2] at hnodupout
          exact hnodupout
      dsimp only
      rw [hsplit, findChannel_split P S₁ S₂ c₀ hnodup2]
      dsimp only
      by_cases hn : c₀.name ≠ create_channel_name styles q
      · rw [if_pos hn, renameChannel_split P S₁ S₂ c₀ _ hnodup2]
        have hnodup2' : (idsOf (P ++ (S₁ ++
            (⟨c₀.id, create_channel_name styles q⟩ : VoiceChannel) :: S₂))).Nodup := by
          have heq : idsOf (P ++ (S₁ ++
              (⟨c₀.id, create_channel_name styles q⟩ : VoiceChannel) :: S₂))
              = idsOf (P ++ (S₁ ++ c₀ :: S₂)) := by
            simp [idsOf]
          rw [heq]
          exact hnodup2
        have hpos : channelPosition (P ++ (S₁ ++
            (⟨c₀.id, create_channel_name styles q⟩ : VoiceChannel) :: S₂)) c₀.id
            = some (P.length + S₁.length) := by
          simpa using channelPosition_split P S₁ S₂
            ⟨c₀.id, create_channel_name styles q⟩ hnodup2'
        rw [hpos]
        dsimp only
        by_cases hS1 : S₁ = []
        · subst hS1
          rw [if_neg (by simp)]
          exact hloopstep _ _ (by simp)
        · rw [if_pos (by
            have := List.length_pos.mpr hS1
            omega)]
          have hmove : moveChannel (P ++ (S₁ ++
              (⟨c₀.id, create_channel_name styles q⟩ : VoiceChannel) :: S₂)) c₀.id P.length
              = P ++ (⟨c₀.id, create_channel_name styles q⟩ : VoiceChannel) :: (S₁ ++ S₂) := by
            simpa using moveChannel_to_boundary P S₁ S₂
              ⟨c₀.id, create_channel_name styles q⟩ hnodup2'
          rw [hmove]
          exact hloopstep _ _ rfl
      · rw [if_neg hn]
        dsimp only
        have hc₀eq : c₀ = (⟨c₀.id, create_channel_name styles q⟩ : VoiceChannel) := by
          have hname := not_not.mp (by simpa using hn)
          cases c₀
          simp_all
        have hpos : channelPosition (P ++ (S₁ ++ c₀ :: S₂)) c₀.id
            = some (P.length + S₁.length) := channelPosition_split P S₁ S₂ c₀ hnodup2
        rw [hpos]
        dsimp only
        by_cases hS1 : S₁ = []
        · subst hS1
          rw [if_neg (by simp)]
          apply hloopstep
          rw [← hc₀eq]
          simp
        · rw [if_pos (by
            have := List.length_pos.mpr hS1
            omega)]
          rw [moveChannel_to_boundary P S₁ S₂ c₀ hnodup2]
          apply hloopstep
          rw [← hc₀eq]
    | none =>
      dsimp only
      have hnone := lookup_pair_none_elim chans₀ q.symbol hl
      have hS' : chans₀.filter (fun c => decide (chanKey c ∉ processed ++ [q.symbol]))
          = chans₀.filter (fun c => decide (chanKey c ∉ processed)) := by
        rw [filter_processed_append]
        apply List.filter_eq_self.mpr
        intro d hd
        simp only [decide_eq_true_eq]
        exact hnone d (List.mem_filter.mp hd).1
      rw [insertChannelAt_boundary]
      have hprocrest : ∀ q2 ∈ rest, q2.symbol ∉ processed ++ [q.symbol] := by
        intro q2 hq2
        simp only [List.mem_append, List.mem_singleton]
        rintro (h | h)
        · exact hproc q2 (List.mem_cons_of_mem q hq2) h
        · exact hnotinrest (h ▸ List.mem_map.mpr ⟨q2, hq2, rfl⟩)
      have hcont2' : P ++ (⟨nidc, create_channel_name styles q⟩ : VoiceChannel) ::
            chans₀.filter (fun c => decide (chanKey c ∉ processed))
          = (P ++ [(⟨nidc, create_channel_name styles q⟩ : VoiceChannel)]) ++
            chans₀.filter (fun c => decide (chanKey c ∉ processed ++ [q.symbol])) := by
        rw [hS']
        simp
      have hlen1 : P.length + 1
          = (P ++ [(⟨nidc, create_channel_name styles q⟩ : VoiceChannel)]).length := by simp
      have hPlt1 : ∀ p ∈ P ++ [(⟨nidc, create_channel_name styles q⟩ : VoiceChannel)],
          p.id < nidc + 1 := by
        intro p hp
        rcases List.mem_append.mp hp with h | h
        · exact Nat.lt_succ_of_lt (hPlt p h)
        · rw [List.mem_singleton.mp h]
          exact Nat.lt_succ_self nidc
      have hallids : ∀ x ∈ idsOf (P ++
          chans₀.filter (fun c => decide (chanKey c ∉ processed))), x < nidc := by
        intro x hx
        rcases List.mem_map.mp hx with ⟨d, hd, rfl⟩
        rcases List.mem_append.mp hd with h | h
        · exact hPlt d h
        · exact lt_of_lt_of_le (hfresh₀ d (List.mem_filter.mp h).1) hnid
      have hnodup1 : (idsOf ((P ++ [(⟨nidc, create_channel_name styles q⟩ : VoiceChannel)]) ++
          chans₀.filter (fun c => decide (chanKey c ∉ processed ++ [q.symbol])))).Nodup := by
        rw [← hcont2']
        have heq : idsOf (P ++ (⟨nidc, create_channel_name styles q⟩ : VoiceChannel) ::
            chans₀.filter (fun c => decide (chanKey c ∉ processed)))
            = idsOf P ++ nidc :: idsOf
              (chans₀.filter (fun c => decide (chanKey c ∉ processed))) := by
          simp [idsOf]
        rw [heq]
        apply (List.perm_middle.nodup_iff).mpr
        rw [List.nodup_cons]
        have hidsapp : idsOf P ++ idsOf (chans₀.filter (fun c => decide (chanKey c ∉ processed)))
            = idsOf (P ++ chans₀.filter (fun c => decide (chanKey c ∉ processed))) := by
          simp [idsOf]
        constructor
        · intro hmem
          have hlt : (nidc : Nat) < nidc := by
            apply hallids
            rw [← hidsapp]
            exact hmem
          omega
        · rw [hidsapp]
          exact hnodup
      obtain ⟨P'', nid', ops'', hloop, hnames, hnidle, hlt, horigin, hnodupout⟩ :=
        fullPassLoop_shape styles chans₀ nid₀ hkeys₀ hids₀ hfresh₀ rest
          (P ++ [(⟨nidc, create_channel_name styles q⟩ : VoiceChannel)]) (nidc + 1)
          (ops ++ [ChannelOp.create nidc (create_channel_name styles q) (some P.length)])
          (processed ++ [q.symbol]) (Nat.le_succ_of_le hnid) hsymsrest hprocrest hPlt1 hnodup1
      rw [hlen1, hcont2', hloop]
      refine ⟨(⟨nidc, create_channel_name styles q⟩ : VoiceChannel) :: P'', nid', ops'',
        ?_, ?_, ?_, ?_, ?_, ?_⟩
      · have he1 : (processed ++ [q.symbol]) ++ rest.map (fun q => q.symbol)
            = processed ++ (q :: rest).map (fun q => q.symbol) := by simp
        have he2 : (P ++ [(⟨nidc, create_channel_name styles q⟩ : VoiceChannel)]) ++ P''
            = P ++ (⟨nidc, create_channel_name styles q⟩ : VoiceChannel) :: P'' := by simp
        rw [he1, he2]
      · simp [hnames]
      · exact le_trans (Nat.le_succ nidc) hnidle
      · intro p hp
        rcases List.mem_cons.mp hp with rfl | hp2
        · exact lt_of_lt_of_le (Nat.lt_succ_self nidc) hnidle
        · exact hlt p hp2
      · intro p hp
        rcases List.mem_cons.mp hp with rfl | hp2
        · exact Or.inr (le_refl nidc)
        · rcases horigin p hp2 with ⟨c, hc, hcid, hckey⟩ | hge
          · exact Or.inl ⟨c, hc, hcid, List.mem_cons_of_mem _ hckey⟩
          · exact Or.inr (le_trans (Nat.le_succ nidc) hge)
      · have he1 : (processed ++ [q.symbol]) ++ rest.map (fun q => q.symbol)
            = processed ++ (q :: rest).map (fun q => q.symbol) := by simp
        have he2 : (P ++ [(⟨nidc, create_channel_name styles q⟩ : VoiceChannel)]) ++ P''
            = P ++ (⟨nidc, create_channel_name styles q⟩ : VoiceChannel) :: P'' := by simp
        rw [he1, he2] at hnodupout
        exact hnodupout

theorem sortQuotes_perm (quotes : List CryptoQuote) :
    List.Perm (sortQuotesByMarketCap quotes) quotes :=
  List.perm_insertionSort _ quotes

/-- A container whose names are exactly the rendered labels of a quote list
has those quotes' symbols as its extracted keys. -/
theorem keysOf_eq_of_canonical (styles : Styles) (sq : List CryptoQuote)
    (chans : List VoiceChannel)
    (hnames : chans.map (fun c => c.name) = sq.map (create_channel_name styles))
    (hspace : ∀ q ∈ sq, ' ' ∉ q.symbol.toList) :
    keysOf chans = sq.map (fun q => q.symbol) := by
  have h1 : keysOf chans = (chans.map (fun c => c.name)).map channelSymbol := by
    simp [keysOf, chanKey, List.map_map]
  rw [h1, hnames, List.map_map]
  exact List.map_congr_left
    (fun q hq => channelSymbol_create_channel_name styles q (hspace q hq))

/-- A full pass on a well-formed container leaves exactly one channel per
fetched quote, in rank order and carrying the current rendered labels, with
distinct Discord ids. -/
theorem full_pass_shape (styles : Styles) (quotes : List CryptoQuote)
    (chans₀ : List VoiceChannel) (nid₀ : Nat)
    (hkeys₀ : (keysOf chans₀).Nodup) (hids₀ : (idsOf chans₀).Nodup)
    (hfresh₀ : ∀ c ∈ chans₀, c.id < nid₀)
    (hsyms : (quotes.map (fun q => q.symbol)).Nodup)
    (hq : ¬ quotes = []) :
    ((update_voice_channels_for_guild styles quotes chans₀ nid₀).1).map (fun c => c.name)
      = (sortQuotesByMarketCap quotes).map (create_channel_name styles) ∧
    (idsOf (update_voice_channels_for_guild styles quotes chans₀ nid₀).1).Nodup := by
  have hperm := sortQuotes_perm quotes
  have hsyms' : ((sortQuotesByMarketCap quotes).map (fun q => q.symbol)).Nodup :=
    ((hperm.map _).nodup_iff).mpr hsyms
  have hfilter0 : chans₀.filter (fun c => decide (chanKey c ∉ ([] : List String))) = chans₀ :=
    List.filter_eq_self.mpr (fun c _ => by simp)
  obtain ⟨P', nid', ops', hloop, hnames, -, -, -, hnodup⟩ :=
    fullPassLoop_shape styles chans₀ nid₀ hkeys₀ hids₀ hfresh₀
      (sortQuotesByMarketCap quotes) [] nid₀ [] [] (le_refl _) hsyms'
      (by simp) (by simp) (by simpa [hfilter0] using hids₀)
  rw [hfilter0] at hloop
  simp only [List.nil_append, List.length_nil] at hloop hnodup
  unfold update_voice_channels_for_guild
  rw [if_neg hq]
  dsimp only
  rw [buildChannelMap_eq _ hkeys₀, hloop]
  dsimp only
  rw [deleteFold_eq]
  have hdead : ((chans₀.map (fun c => (chanKey c, c.id))).filter
        (fun kv => decide (kv.1 ∉ (sortQuotesByMarketCap quotes).map (fun q => q.symbol)))).map
        Prod.snd
      = idsOf (chans₀.filter (fun c =>
          decide (chanKey c ∉ (sortQuotesByMarketCap quotes).map (fun q => q.symbol)))) := by
    rw [← filter_comp_map (fun c => (chanKey c, c.id))
      (fun kv => decide (kv.1 ∉ (sortQuotesByMarketCap quotes).map (fun q => q.symbol))) chans₀]
    rw [List.map_map]
    rfl
  rw [hdead]
  set S_N := chans₀.filter (fun c =>
    decide (chanKey c ∉ (sortQuotesByMarketCap quotes).map (fun q => q.symbol))) with hSN
  have hnodup' : (idsOf P' ++ idsOf S_N).Nodup := by
    have : idsOf (P' ++ S_N) = idsOf P' ++ idsOf S_N := by simp [idsOf]
    rw [← this]
    exact hnodup
  rw [List.nodup_append] at hnodup'
  obtain ⟨hP'nodup, -, hdisj⟩ := hnodup'
  have hP'keep : P'.filter (fun c => ! (idsOf S_N).contains c.id) = P' := by
    apply List.filter_eq_self.mpr
    intro p hp
    have : p.id ∉ idsOf S_N := fun hmem => hdisj (List.mem_map.mpr ⟨p, hp, rfl⟩) hmem
    simpa [List.elem_iff] using this
  have hSdrop : S_N.filter (fun c => ! (idsOf S_N).contains c.id) = [] := by
    apply List.filter_eq_nil_iff.mpr
    intro c hc
    have : c.id ∈ idsOf S_N := List.mem_map.mpr ⟨c, hc, rfl⟩
    simpa [List.elem_iff] using this
  rw [List.filter_append, hP'keep, hSdrop, List.append_nil]
  exact ⟨hnames, hP'nodup⟩

/-- The full-pass loop is a no-op on a container where every remaining quote's
symbol resolves (through the key map) to a channel that already carries the
quote's current rendered label and already sits at the quote's rank. -/
theorem fullPassLoop_noop (styles : Styles) (byKey : List (String × Nat))
    (C : List VoiceChannel) (nid : Nat) :
    ∀ (sq : List CryptoQuote) (i : Nat) (ops : List ChannelOp) (processed : List String),
      (∀ k q, sq.get? k = some q → ∃ c₀ : VoiceChannel,
          lookupKV byKey q.symbol = some c₀.id ∧
          findChannel C c₀.id = some c₀ ∧
          c₀.name = create_channel_name styles q ∧
          channelPosition C c₀.id = some (i + k)) →
      fullPassLoop styles byKey sq i C nid ops processed
        = (C, nid, ops, processed ++ sq.map (fun q => q.symbol))
  | [], i, ops, processed, _ => by simp [fullPassLoop]
  | q :: rest, i, ops, processed, h => by
    obtain ⟨c₀, hlook, hfind, hname, hpos⟩ := h 0 q rfl
    rw [Nat.add_zero] at hpos
    unfold fullPassLoop
    rw [hlook]
    dsimp only
    rw [hfind]
    dsimp only
    rw [if_neg (by simp [hname])]
    rw [hpos]
    dsimp only
    rw [if_neg (fun hne => hne rfl)]
    rw [fullPassLoop_noop styles byKey C nid rest (i + 1) ops (processed ++ [q.symbol])
      (fun k q' hk => by
        obtain ⟨c', h1, h2, h3, h4⟩ := h (k + 1) q' hk
        refine ⟨c', h1, h2, h3, ?_⟩
        have heq : i + 1 + k = i + (k + 1) := by omega
        rw [heq]
        exact h4)]
    simp

/-- A container already canonical for the sorted quote list — one channel per
quote, in rank order, carrying the current rendered labels — is left unchanged
by a full pass, which issues no operations. -/
theorem full_pass_noop (styles : Styles) (quotes : List CryptoQuote)
    (C : List VoiceChannel) (nid : Nat)
    (hnames : C.map (fun c => c.name)
      = (sortQuotesByMarketCap quotes).map (create_channel_name styles))
    (hids : (idsOf C).Nodup)
    (hsyms : (quotes.map (fun q => q.symbol)).Nodup)
    (hspace : ∀ q ∈ quotes, ' ' ∉ q.symbol.toList)
    (hq : ¬ quotes = []) :
    update_voice_channels_for_guild styles quotes C nid = (C, []) := by
  have hperm := sortQuotes_perm quotes
  have hsyms' : ((sortQuotesByMarketCap quotes).map (fun q => q.symbol)).Nodup :=
    ((hperm.map _).nodup_iff).mpr hsyms
  have hspace' : ∀ q ∈ sortQuotesByMarketCap quotes, ' ' ∉ q.symbol.toList :=
    fun q hq' => hspace q (hperm.mem_iff.mp hq')
  have hkeys : keysOf C = (sortQuotesByMarketCap quotes).map (fun q => q.symbol) :=
    keysOf_eq_of_canonical styles (sortQuotesByMarketCap quotes) C hnames hspace'
  have hkeysnodup : (keysOf C).Nodup := by rw [hkeys]; exact hsyms'
  have hlen : (sortQuotesByMarketCap quotes).length = C.length := by
    have := congrArg List.length hnames
    simpa using this.symm
  have H : ∀ k q, (sortQuotesByMarketCap quotes).get? k = some q → ∃ c₀ : VoiceChannel,
      lookupKV (C.map (fun c => (chanKey c, c.id))) q.symbol = some c₀.id ∧
      findChannel C c₀.id = some c₀ ∧
      c₀.name = create_channel_name styles q ∧
      channelPosition C c₀.id = some (0 + k) := by
    intro k q hget
    rw [Nat.zero_add]
    obtain ⟨hk, -⟩ := List.get?_eq_some.mp hget
    have hkC : k < C.length := by rw [← hlen]; exact hk
    have hdecomp : C = C.take k ++ ([] ++ C.get ⟨k, hkC⟩ :: C.drop (k + 1)) := by
      rw [List.nil_append, ← List.drop_eq_get_cons hkC]
      exact (List.take_append_drop k C).symm
    have hids' : (idsOf (C.take k ++ ([] ++ C.get ⟨k, hkC⟩ :: C.drop (k + 1)))).Nodup := by
      rw [← hdecomp]; exact hids
    have hnamek : (C.get ⟨k, hkC⟩).name = create_channel_name styles q := by
      have hcol := congrArg (fun l => l.get? k) hnames
      simp only [List.get?_map] at hcol
      rw [List.get?_eq_get hkC, hget] at hcol
      simpa using hcol
    have hkeyk : chanKey (C.get ⟨k, hkC⟩) = q.symbol := by
      unfold chanKey
      rw [hnamek]
      exact channelSymbol_create_channel_name styles q (hspace' q (List.get?_mem hget))
    generalize hgen : C.get ⟨k, hkC⟩ = c₀ at hdecomp hids' hnamek hkeyk
    have hc₀mem : c₀ ∈ C := by rw [hdecomp]; simp
    refine ⟨c₀, ?_, ?_, hnamek, ?_⟩
    · rw [lookupKV_map_pair]
      have hfindkey : C.find? (fun c => chanKey c = q.symbol) = some c₀ := by
        apply find?_eq_of_pred_unique _ _ _ hc₀mem (by simpa using hkeyk)
        intro y hy hpy
        have h1 : chanKey y = q.symbol := by simpa using hpy
        exact List.inj_on_of_nodup_map hkeysnodup hy hc₀mem (h1.trans hkeyk.symm)
      rw [hfindkey]
      rfl
    · rw [hdecomp]
      exact findChannel_split _ _ _ _ hids'
    · rw [hdecomp]
      rw [channelPosition_split _ _ _ _ hids']
      simp [Nat.min_eq_left (Nat.le_of_lt hkC)]
  unfold update_voice_channels_for_guild
  rw [if_neg hq]
  dsimp only
  rw [buildChannelMap_eq _ hkeysnodup,
    fullPassLoop_noop styles (C.map (fun c => (chanKey c, c.id))) C nid
      (sortQuotesByMarketCap quotes) 0 [] [] H]
  dsimp only
  rw [deleteFold_eq]
  have hkvs : (C.map (fun c => (chanKey c, c.id))).filter
      (fun kv => decide (kv.1 ∉ [] ++ (sortQuotesByMarketCap quotes).map (fun q => q.symbol)))
      = [] := by
    apply List.filter_eq_nil_iff.mpr
    intro kv hkv
    rcases List.mem_map.mp hkv with ⟨c, hc, rfl⟩
    have hmem : chanKey c ∈ (sortQuotesByMarketCap quotes).map (fun q => q.symbol) := by
      rw [← hkeys]
      exact List.mem_map.mpr ⟨c, hc, rfl⟩
    simp [hmem]
  rw [hkvs]
  simp

theorem findQuoteIdx_symbol :
    ∀ (l : List CryptoQuote) (t : String) (p : Nat × CryptoQuote),
      findQuoteIdx l t = some p → p.2.symbol = t
  | [], _, _, h => by simp [findQuoteIdx] at h
  | q :: rest, t, p, h => by
    unfold findQuoteIdx at h
    by_cases hq : q.symbol = t
    · rw [if_pos hq] at h
      injection h with h1
      rw [← h1]
      exact hq
    · rw [if_neg hq] at h
      cases hrec : findQuoteIdx rest t with
      | none => rw [hrec] at h; simp at h
      | some p' =>
        rw [hrec] at h
        simp only [Option.map_some'] at h
        injection h with h1
        rw [← h1]
        exact findQuoteIdx_symbol rest t p' hrec

theorem findQuoteIdx_mem :
    ∀ (l : List CryptoQuote) (t : String) (p : Nat × CryptoQuote),
      findQuoteIdx l t = some p → p.2 ∈ l
  | [], _, _, h => by simp [findQuoteIdx] at h
  | q :: rest, t, p, h => by
    unfold findQuoteIdx at h
    by_cases hq : q.symbol = t
    · rw [if_pos hq] at h
      injection h with h1
      rw [← h1]
      exact List.mem_cons_self q rest
    · rw [if_neg hq] at h
      cases hrec : findQuoteIdx rest t with
      | none => rw [hrec] at h; simp at h
      | some p' =>
        rw [hrec] at h
        simp only [Option.map_some'] at h
        injection h with h1
        rw [← h1]
        exact List.mem_cons_of_mem q (findQuoteIdx_mem rest t p' hrec)

/-- Inserting a channel anywhere is a permutation of consing it. -/
theorem insertChannelAt_perm (chans : List VoiceChannel) (pos : Nat) (c : VoiceChannel) :
    List.Perm (insertChannelAt chans pos c) (c :: chans) := by
  have h1 : insertChannelAt chans pos c
      = List.take pos chans ++ c :: List.drop pos chans := by
    unfold insertChannelAt
    simp
  rw [h1]
  have h2 : List.Perm (List.take pos chans ++ c :: List.drop pos chans)
      (c :: (List.take pos chans ++ List.drop pos chans)) := List.perm_middle
  rw [List.take_append_drop] at h2
  exact h2

/-- Repositioning the freshly appended channel permutes the container. -/
theorem moveChannel_fresh_perm (chans : List VoiceChannel) (nid : Nat) (name : String)
    (pos : Nat) (hfresh : ∀ c ∈ chans, c.id ≠ nid) :
    List.Perm (moveChannel (chans ++ [(⟨nid, name⟩ : VoiceChannel)]) nid pos)
      (chans ++ [(⟨nid, name⟩ : VoiceChannel)]) := by
  unfold moveChannel
  have hfc : findChannel (chans ++ [(⟨nid, name⟩ : VoiceChannel)]) nid
      = some ⟨nid, name⟩ := by
    unfold findChannel
    rw [find?_append_false _ chans _ (fun y hy => by simp [hfresh y hy])]
    simp
  rw [hfc, filter_ne_fresh chans nid name hfresh]
  exact (insertChannelAt_perm chans pos _).trans
    (List.perm_append_singleton _ _).symm

/-- The container after the add path: unchanged when the path bails out, and
otherwise a permutation of the original container with the rendered new
channel appended. -/
theorem add_voice_ticker_container (styles : Styles) (quotes : List CryptoQuote)
    (ticker : String) (chans : List VoiceChannel) (nid : Nat)
    (hfresh : ∀ c ∈ chans, c.id ≠ nid) :
    (add_voice_ticker styles quotes ticker chans nid).1 = chans ∨
    ∃ r q, findQuoteIdx (sortQuotesByMarketCap quotes) ticker = some (r, q) ∧
      List.Perm (add_voice_ticker styles quotes ticker chans nid).1
        (chans ++ [(⟨nid, create_channel_name styles q⟩ : VoiceChannel)]) := by
  by_cases hq : quotes = []
  · left
    simp [add_voice_ticker, hq]
  · cases hfind : findQuoteIdx (sortQuotesByMarketCap quotes) ticker with
    | none =>
      left
      simp [add_voice_ticker, if_neg hq, hfind]
    | some tq =>
      obtain ⟨r, q⟩ := tq
      right
      refine ⟨r, q, rfl, ?_⟩
      have hex := filter_ne_fresh chans nid (create_channel_name styles q) hfresh
      simp only [add_voice_ticker, if_neg hq, hfind]
      by_cases h0 : r = 0
      · rw [if_pos h0]
        dsimp only
        exact moveChannel_fresh_perm chans nid _ 0 hfresh
      · rw [if_neg h0, hex]
        by_cases hlt : r < chans.length
        · rw [if_pos hlt]
          cases hget : chans.get? (r - 1) with
          | none =>
            dsimp only
            exact List.Perm.refl _
          | some before =>
            dsimp only
            cases hpos : channelPosition
                (chans ++ [(⟨nid, create_channel_name styles q⟩ : VoiceChannel)])
                before.id with
            | none =>
              dsimp only
              exact List.Perm.refl _
            | some bpos =>
              dsimp only
              exact moveChannel_fresh_perm chans nid _ (bpos + 1) hfresh
        · rw [if_neg hlt]

/-- C5 counterexample: an initially key-unique container holding the foreign
channel `SOL chat` (extracted key `SOL`) loses key uniqueness when the add
path adds the ticker SOL — the path never looks for an existing carrier of the
key, so the container ends up with two channels whose key is `SOL`. -/
theorem c5_counterexample :
    (keysOf [(⟨1, "SOL chat"⟩ : VoiceChannel)]).Nodup ∧
    ¬ (keysOf (add_voice_ticker testStyles [qSOL] "SOL"
        [(⟨1, "SOL chat"⟩ : VoiceChannel)] 2).1).Nodup := by decide

/-- C5 (amended): the key-uniqueness invariant — at most one channel per
extracted key — is preserved by the full pass (on a container with distinct
ids below the fresh-id counter, for distinct space-free quote symbols) and by
the remove path unconditionally; the add path preserves it only under the
extra precondition that the added ticker's key is not already carried by some
channel — the path never checks for an existing carrier, so without that
precondition the invariant is violated (see the counterexample). -/
theorem c5_amended (styles : Styles) (quotes : List CryptoQuote) (ticker : String)
    (chans : List VoiceChannel) (nid : Nat)
    (hkeys : (keysOf chans).Nodup) :
    ((∀ c ∈ chans, c.id < nid) → (idsOf chans).Nodup →
      (quotes.map (fun q => q.symbol)).Nodup → (∀ q ∈ quotes, ' ' ∉ q.symbol.toList) →
      (keysOf (update_voice_channels_for_guild styles quotes chans nid).1).Nodup) ∧
    ((∀ c ∈ chans, c.id ≠ nid) → ticker ∉ keysOf chans →
      (∀ q ∈ quotes, ' ' ∉ q.symbol.toList) →
      (keysOf (add_voice_ticker styles quotes ticker chans nid).1).Nodup) ∧
    (keysOf (remove_voice_ticker ticker chans).1).Nodup := by
  refine ⟨?_, ?_, ?_⟩
  · intro hfresh hids hsyms hspace
    by_cases hq : quotes = []
    · subst hq
      simpa [update_voice_channels_for_guild] using hkeys
    · obtain ⟨hnames, -⟩ :=
        full_pass_shape styles quotes chans nid hkeys hids hfresh hsyms hq
      have hperm := sortQuotes_perm quotes
      have hspace' : ∀ q ∈ sortQuotesByMarketCap quotes, ' ' ∉ q.symbol.toList :=
        fun q hq' => hspace q (hperm.mem_iff.mp hq')
      have hkeq := keysOf_eq_of_canonical styles (sortQuotesByMarketCap quotes)
        (update_voice_channels_for_guild styles quotes chans nid).1 hnames hspace'
      rw [hkeq]
      exact ((hperm.map _).nodup_iff).mpr hsyms
  · intro hfresh hnotin hspace
    rcases add_voice_ticker_container styles quotes ticker chans nid hfresh with
      h | ⟨r, q, hfind, hpm⟩
    · rw [h]
      exact hkeys
    · have hqmem : q ∈ quotes :=
        (sortQuotes_perm quotes).mem_iff.mp (findQuoteIdx_mem _ _ _ hfind)
      have hsym : q.symbol = ticker := findQuoteIdx_symbol _ _ _ hfind
      have hkey : chanKey (⟨nid, create_channel_name styles q⟩ : VoiceChannel) = ticker := by
        unfold chanKey
        dsimp only
        rw [channelSymbol_create_channel_name styles q (hspace q hqmem), hsym]
      have h1 : List.Perm (keysOf (add_voice_ticker styles quotes ticker chans nid).1)
          (keysOf (chans ++ [(⟨nid, create_channel_name styles q⟩ : VoiceChannel)])) :=
        hpm.map chanKey
      rw [h1.nodup_iff]
      have h2 : keysOf (chans ++ [(⟨nid, create_channel_name styles q⟩ : VoiceChannel)])
          = keysOf chans ++ [ticker] := by
        simp [keysOf, hkey]
      rw [h2, (List.perm_append_singleton ticker (keysOf chans)).nodup_iff]
      exact List.nodup_cons.mpr ⟨hnotin, hkeys⟩
  · unfold remove_voice_ticker
    cases hfind : chans.find? (fun c => chanKey c = ticker) with
    | none => exact hkeys
    | some c =>
      dsimp only
      exact keysOf_filter_nodup chans _ hkeys

theorem c5_witness :
    (keysOf (update_voice_channels_for_guild testStyles [qETH]
        [(⟨1, "BTC U $90.00"⟩ : VoiceChannel)] 10).1).Nodup ∧
    (keysOf (add_voice_ticker testStyles [qETH] "ETH"
        [(⟨1, "BTC U $90.00"⟩ : VoiceChannel)] 10).1).Nodup ∧
    (keysOf (remove_voice_ticker "ETH" [(⟨1, "BTC U $90.00"⟩ : VoiceChannel)]).1).Nodup := by
  obtain ⟨h1, h2, h3⟩ := c5_amended testStyles [qETH] "ETH"
    [(⟨1, "BTC U $90.00"⟩ : VoiceChannel)] 10 (by decide)
  exact ⟨h1 (by decide) (by decide) (by decide) (by decide),
    h2 (by decide) (by decide) (by decide), h3⟩

/-- C6: reconciliation idempotence — with an unchanged quote list, a second
full pass starting from the container the first full pass produced leaves the
container unchanged and issues zero rename, reposition, create, and delete
operations (for a well-formed start: distinct extracted keys, distinct channel
ids below the fresh-id counter, distinct space-free quote symbols, non-empty
quotes). -/
theorem c6_idempotent (styles : Styles) (quotes : List CryptoQuote)
    (chans₀ : List VoiceChannel) (nid₀ nid₁ : Nat)
    (hkeys₀ : (keysOf chans₀).Nodup) (hids₀ : (idsOf chans₀).Nodup)
    (hfresh₀ : ∀ c ∈ chans₀, c.id < nid₀)
    (hsyms : (quotes.map (fun q => q.symbol)).Nodup)
    (hspace : ∀ q ∈ quotes, ' ' ∉ q.symbol.toList)
    (hq : ¬ quotes = []) :
    update_voice_channels_for_guild styles quotes
        (update_voice_channels_for_guild styles quotes chans₀ nid₀).1 nid₁
      = ((update_voice_channels_for_guild styles quotes chans₀ nid₀).1, []) := by
  obtain ⟨hnames, hids⟩ :=
    full_pass_shape styles quotes chans₀ nid₀ hkeys₀ hids₀ hfresh₀ hsyms hq
  exact full_pass_noop styles quotes _ nid₁ hnames hids hsyms hspace hq

theorem c6_witness :
    update_voice_channels_for_guild testStyles [qBTC]
        (update_voice_channels_for_guild testStyles [qBTC] [] 0).1 7
      = ((update_voice_channels_for_guild testStyles [qBTC] [] 0).1, []) :=
  c6_idempotent testStyles [qBTC] [] 0 7 (by decide) (by decide)
    (fun c hc => absurd hc (List.not_mem_nil c)) (by decide) (by decide)
    (List.cons_ne_nil qBTC [])

end DiscordPrice
